import Mathlib

/-!
Verification development for the npm-stats-comparator repository.

The Go program drives a fetch / download / analyze pipeline over GitHub
releases of an npm package.  This file gives a shallow embedding of the
components the specification's claims are about:

* `scanList` / `fetchLoopFuel` — the release-range scan of
  `GetGitHubReleases` (releases.go), with the paginated API modelled as a
  function from page number to page contents and the unbounded `for` loop
  given explicit fuel;
* `packageNameOf` / `pathComponentOf` / `npmURL` — the registry URL
  derivation of `DownloadGitHubRelease`;
* `downloadRelease` — the cache check / fetch / extract flow of
  `DownloadGitHubRelease`, with the filesystem as a list of existing
  directories and the network as an environment value;
* `walkFiles` / `analyzeRelease` — the directory walk of `AnalyzeRelease`
  with the idealized newline count, and `CountLines` / `walkFilesBuf` /
  `analyzeReleaseResultBuf` — the same walk with the line counter as
  written, buffer reuse and `Read` chunking included;
* `modelUpdate` — the Bubble Tea `model.Update` reducer (model.go)
  restricted to the pipeline messages (UI key handling, spinner ticks and
  window sizing are rendering concerns outside the model).
-/

/-- A GitHub release as consumed by this program: the tag name (which the
octokit model exposes as a nullable pointer, hence `Option`) and the
creation timestamp (compared through `.Unix()`, an `int64`). -/
structure Releaseable where
  tagName : Option String
  createdAt : Int
deriving DecidableEq, Repr

/-- Stable insertion of a release into a list sorted by strictly
decreasing creation time: `r` goes before the first element strictly
older than it, so elements with equal timestamps keep their order. -/
def insertDesc (r : Releaseable) : List Releaseable → List Releaseable
  | [] => [r]
  | x :: xs => if x.createdAt < r.createdAt then r :: x :: xs else x :: insertDesc r xs

/-- `slices.SortStableFunc(releases, cmp.Compare(b.GetCreatedAt().Unix(),
a.GetCreatedAt().Unix()))` in `GetGitHubReleases`: a stable sort by
reverse creation date (newest first), realised as a stable insertion
sort with the same key order. -/
def sortDesc (l : List Releaseable) : List Releaseable :=
  l.foldr insertDesc []

/-- The body of the `for _, release := range fetchedReleases` loop in
`GetGitHubReleases`: skip releases with a nil tag, skip releases whose
tag matches the exclusion pattern `p`, `break` once both boundaries have
been found, set `foundFrom` / `foundTo`, skip until one boundary has
been seen, and otherwise append.  The exclusion pattern is modelled as
the boolean matching function of the compiled regular expression. -/
def scanList (p : String → Bool) (fromTag toTag : String) :
    List Releaseable → Bool → Bool → List Releaseable →
    Bool × Bool × List Releaseable
  | [], fF, fT, acc => (fF, fT, acc)
  | r :: rest, fF, fT, acc =>
    match r.tagName with
    | none => scanList p fromTag toTag rest fF fT acc
    | some tag =>
      if p tag then scanList p fromTag toTag rest fF fT acc
      else if fF && fT then (fF, fT, acc)
      else
        let fF2 := fF || (tag == fromTag)
        let fT2 := fT || (!(tag == fromTag) && (tag == toTag))
        if !fF2 && !fT2 then scanList p fromTag toTag rest fF2 fT2 acc
        else scanList p fromTag toTag rest fF2 fT2 (acc ++ [r])

/-- The unbounded pagination loop of `GetGitHubReleases`: fetch page
`page`, sort it newest-first, scan it, stop when both boundary tags have
been found, otherwise increment the page.  The GitHub listing is
modelled as `api : Nat → List Releaseable`; the Go loop has no other
exit, so it is given explicit `fuel`, and `none` means the loop was
still running when the fuel ran out. -/
def fetchLoopFuel (api : Nat → List Releaseable) (p : String → Bool)
    (fromTag toTag : String) :
    Nat → Nat → Bool → Bool → List Releaseable → Option (List Releaseable)
  | 0, _, _, _, _ => none
  | fuel + 1, page, fF, fT, acc =>
    let st := scanList p fromTag toTag (sortDesc (api page)) fF fT acc
    if st.1 && st.2.1 then some st.2.2
    else fetchLoopFuel api p fromTag toTag fuel (page + 1) st.1 st.2.1 st.2.2

/-- `GetGitHubReleases` as run by the returned command: pages start at 1,
no boundary found yet, empty accumulator. -/
def getGitHubReleases (api : Nat → List Releaseable) (p : String → Bool)
    (fromTag toTag : String) (fuel : Nat) : Option (List Releaseable) :=
  fetchLoopFuel api p fromTag toTag fuel 1 false false []

/-! ### npm registry URL derivation (`DownloadGitHubRelease`) -/

/-- Go `strings.Split(s, sep)` for a one-character separator, over the
character list of the string: `splitOnChar c "" = [[]]`, and the
separator occurrences delimit the (possibly empty) fields. -/
def splitOnChar (c : Char) : List Char → List (List Char)
  | [] => [[]]
  | x :: xs =>
    if x = c then [] :: splitOnChar c xs
    else
      match splitOnChar c xs with
      | [] => [[x]]
      | h :: t => (x :: h) :: t

/-- Go `strings.SplitN(s, "/", 2)[1]`: everything after the first slash
(callers guard with `strings.Contains(s, "/")`). -/
def afterFirstSlash : List Char → List Char
  | [] => []
  | x :: xs => if x = '/' then xs else afterFirstSlash xs

/-- The `name` computed by `DownloadGitHubRelease`: split the tag on `@`;
if the split has more than one field and the tag starts with `@`, the
name is `"@" + split[1]`; otherwise it is `split[0]`. -/
def packageNameOf (release : List Char) : List Char :=
  let split := splitOnChar '@' release
  if 0 < split.length then
    if 1 < split.length ∧ release.head? = some '@' then
      '@' :: split.getD 1 []
    else split.getD 0 []
  else []

/-- The `pkg` computed by `DownloadGitHubRelease`, after
`strings.ReplaceAll(pkg, "@", "-")`: the tag (or its part after the
first `/` when it contains one) with every `@` replaced by `-`. -/
def pathComponentOf (release : List Char) : List Char :=
  let pkg := if '/' ∈ release then afterFirstSlash release else release
  pkg.map (fun ch => if ch = '@' then '-' else ch)

/-- The registry URL built by `DownloadGitHubRelease`. -/
def npmURL (release : String) : String :=
  "https://registry.npmjs.com/" ++ String.mk (packageNameOf release.data)
    ++ "/-/" ++ String.mk (pathComponentOf release.data) ++ ".tgz"

/-! ### Downloader (`DownloadGitHubRelease`) -/

/-- Errors surfaced by the pipeline as `errMsg` values, one constructor
per `fmt.Errorf` site the model reaches. -/
inductive PipelineError where
  /-- an error produced outside the modelled components -/
  | external (s : String)
  /-- `"%s does not exist, check that you input an existing GitHub tag ..."` -/
  | notExists (release : String)
  /-- `"no releases found, please check your inputs"` -/
  | noReleasesFound
  /-- `os.MkdirAll` failed -/
  | mkdirFailed
  /-- the `http.Get` of the tarball failed in transport -/
  | transport
  /-- `"release not found at %s"` (HTTP 404) -/
  | notFoundAt (url : String)
  /-- `"could not download release: %s"` (any other non-200 status) -/
  | badStatus (status : Nat)
  /-- `Untar` failed -/
  | extractFailed
  /-- `os.RemoveAll(*extractionDir)` failed -/
  | removeFailed
deriving DecidableEq, Repr

/-- `AnalysisResult`: release tag, total line and file counts (`uint`),
compressed-archive and directory sizes (`int64`), and the per-language
line counts (a Go map, modelled as an association list; only lookups
matter).  The Go zero value has an empty tag and zeroes everywhere. -/
structure AnalysisResult where
  releaseTag : String := ""
  totalLines : Nat := 0
  totalFiles : Nat := 0
  tarSize : Int := 0
  totalDirSize : Int := 0
  linesByLanguage : List (String × Nat) := []
deriving DecidableEq, Repr, Inhabited

/-- The messages of the pipeline (the `tea.Msg` values the modelled
commands produce): `errMsg`, `gitReleaseExistsMsg`,
`gitReleasesDownloadSuccessMsg`, `gitReleaseDownloadedMsg` and
`analysisDoneMsg` (an alias for `AnalysisResult` in the source). -/
inductive Msg where
  | errMsg (e : PipelineError)
  | releaseExists (exists2 : Bool) (release : String)
  | releasesFetched (releases : List Releaseable)
  | downloaded (release dest : String) (tarSize : Int) (cached : Bool)
  | analysisDone (ar : AnalysisResult)
deriving DecidableEq, Repr

/-- The environment a single `DownloadGitHubRelease` invocation runs in:
whether `os.MkdirAll` succeeds, the network response to the tarball GET
(`none` is a transport error, otherwise status code and body bytes), and
whether `Untar` succeeds. -/
structure DlEnv where
  mkdirOk : Bool
  net : Option (Nat × List Char)
  extractOk : Bool
deriving DecidableEq, Repr

/-- `filepath.Join(destDir, release)` for the simple tag/directory names
this program joins (already clean, so `filepath.Clean` is the
identity). -/
def destPath (destDir release : String) : String :=
  destDir ++ "/" ++ release

/-- `DownloadGitHubRelease release destDir` over a filesystem modelled as
the list of existing directories: if `destRoot/tag` exists, report an
immediate cache hit (tar size 0, no network call); otherwise create the
directory, fetch the tarball, extract it, and report the byte size of
the buffered body (re-read after a seek to the start) with
`cached = false`.  Returns the message, the new filesystem, and the
number of network requests made. -/
def downloadRelease (env : DlEnv) (fs : List String) (release destDir : String) :
    Msg × List String × Nat :=
  let dest := destPath destDir release
  if dest ∈ fs then (.downloaded release dest 0 true, fs, 0)
  else if !env.mkdirOk then (.errMsg .mkdirFailed, fs, 0)
  else
    let fs2 := dest :: fs
    match env.net with
    | none => (.errMsg .transport, fs2, 1)
    | some (status, body) =>
      if status = 200 then
        if env.extractOk then
          (.downloaded release dest (body.length : Int) false, fs2, 1)
        else (.errMsg .extractFailed, fs2, 1)
      else if status = 404 then (.errMsg (.notFoundAt (npmURL release)), fs2, 1)
      else (.errMsg (.badStatus status), fs2, 1)

/-! ### Analyzer (`AnalyzeRelease` and `CountLines`) -/

/-- The number of newline bytes in a byte sequence — the count the
spec's Line Counter is meant to produce ("counts newline-delimited
lines in a byte stream").  The code's `CountLines` (modelled faithfully
below, buffer reuse included) matches this only when every file is
delivered in a single `Read`; see `c5_analyzer_overcounts_lines`. -/
def countLines (content : List Char) : Nat :=
  content.count '\n'

/-- The `extToLang` lookup table, in source order. -/
def extToLang : List (String × String) :=
  [(".js", "JavaScript"), (".cjs", "JavaScript"), (".mjs", "JavaScript"),
   (".ts", "TypeScript"), (".map", "Source Map"), (".json", "JSON"),
   (".md", "Markdown")]

/-- `filepath.Ext`: walk the path backwards until a path separator; the
extension is the suffix starting at the last dot of the final element,
or empty when there is none.  `revRest` is the unexamined part of the
reversed path, `acc` the suffix accumulated so far. -/
def extFromRev : List Char → List Char → List Char
  | [], _ => []
  | c :: revRest, acc =>
    if c = '/' then []
    else if c = '.' then c :: acc
    else extFromRev revRest (c :: acc)

/-- `filepath.Ext(path)` as a string. -/
def filepathExt (path : String) : String :=
  String.mk (extFromRev path.data.reverse [])

/-- A regular file seen by the `filepath.WalkDir` walk: its path, its
content bytes, and its on-disk size as reported by `DirEntry.Info`. -/
structure GoFile where
  path : String
  content : List Char
  size : Int
deriving DecidableEq, Repr

/-- Go's `linesByLanguage[language] += lines` on a map modelled as an
association list: add to the existing entry or append a new one. -/
def bumpLang (m : List (String × Nat)) (k : String) (v : Nat) : List (String × Nat) :=
  match m with
  | [] => [(k, v)]
  | (k2, v2) :: rest =>
    if k2 = k then (k2, v2 + v) :: rest else (k2, v2) :: bumpLang rest k v

/-- The language a file's lines are attributed to: none when the file
has no extension (the walk callback returns before touching the map),
otherwise the table entry for the extension, defaulting to `"Other"`. -/
def langOf (f : GoFile) : Option String :=
  let ext := filepathExt f.path
  if ext = "" then none
  else some (((extToLang.lookup ext).getD "Other"))

/-- The walk body of `AnalyzeRelease`, accumulating total lines, total
files, total directory size and the per-language line counts over the
regular files in walk order. -/
def walkFiles : List GoFile → Nat → Nat → Int → List (String × Nat) →
    Nat × Nat × Int × List (String × Nat)
  | [], totalLines, totalFiles, totalDirSize, linesByLanguage =>
    (totalLines, totalFiles, totalDirSize, linesByLanguage)
  | f :: rest, totalLines, totalFiles, totalDirSize, linesByLanguage =>
    let lines := countLines f.content
    match langOf f with
    | none =>
      walkFiles rest (totalLines + lines) (totalFiles + 1)
        (totalDirSize + f.size) linesByLanguage
    | some language =>
      walkFiles rest (totalLines + lines) (totalFiles + 1)
        (totalDirSize + f.size) (bumpLang linesByLanguage language lines)

/-- `AnalyzeRelease locationDir releaseTag` on the tree under
`locationDir/releaseTag`, given as the list of its regular files: the
`AnalysisResult` it builds (note the literal `0` for `tarSize`). -/
def analyzeReleaseResult (releaseTag : String) (files : List GoFile) :
    AnalysisResult :=
  let r := walkFiles files 0 0 0 []
  { releaseTag := releaseTag, totalLines := r.1, totalFiles := r.2.1,
    tarSize := 0, totalDirSize := r.2.2.1, linesByLanguage := r.2.2.2 }

/-- The `analysisDoneMsg` the `AnalyzeRelease` command reports. -/
def analyzeRelease (releaseTag : String) (files : List GoFile) : Msg :=
  .analysisDone (analyzeReleaseResult releaseTag files)

/-! ### `CountLines` as written: the reused buffer and its scan

The code reads the file through a single 64 KiB buffer and, for each
`Read`, scans for newlines with `bytes.IndexByte(buf[buffPosition:],
'\n')`, breaking only on `i == -1` or `bufferSize == buffPosition`.
The scan is over the whole remaining buffer, not the `bufferSize` bytes
the `Read` delivered, so bytes a previous, longer `Read` left behind
are visited too.  The reader is an environment here: the list of byte
slices successive `Read` calls deliver (each at most the buffer long),
after which `Read` reports `(0, io.EOF)` — a call that cannot change
the count, since `bufferSize == buffPosition` holds as soon as a
newline is found. -/

/-- `bytes.IndexByte(l, '\n')`: the index of the first newline byte,
`none` standing for Go's `-1`. -/
def indexOfNl : List Char → Option Nat
  | [] => none
  | c :: rest =>
    if c = '\n' then some 0 else (indexOfNl rest).map (fun j => j + 1)

/-- The inner scan loop of `CountLines`: `rest` is `buf[buffPosition:]`;
the loop breaks when `IndexByte` reports no newline or when
`bufferSize == buffPosition` holds (exact equality — a position past
`bufferSize` does not stop it), otherwise it advances past the newline
and counts it. -/
def scanNlLoop (rest : List Char) (bufferSize buffPosition count : Nat) :
    Nat :=
  match h : indexOfNl rest with
  | none => count
  | some i =>
    if bufferSize = buffPosition then count
    else
      scanNlLoop (rest.drop (i + 1)) bufferSize (buffPosition + i + 1)
        (count + 1)
termination_by rest.length
decreasing_by
  cases rest with
  | nil => simp [indexOfNl] at h
  | cons c t => simp only [List.length_drop, List.length_cons]; omega

/-- The outer `Read` loop of `CountLines`: each delivered chunk is
written over the front of the reused buffer (`Read` writes
`buf[0:n]` and leaves `buf[n:]` untouched) and the scan restarts at
position 0 of the whole buffer. -/
def countLinesLoop : List (List Char) → List Char → Nat → Nat
  | [], _, count => count
  | chunk :: rest, buf, count =>
    countLinesLoop rest (chunk ++ buf.drop chunk.length)
      (scanNlLoop (chunk ++ buf.drop chunk.length) chunk.length 0 count)

/-- `bufio.MaxScanTokenSize`, the size of the buffer `CountLines`
allocates. -/
def MaxScanTokenSize : Nat := 64 * 1024

/-- `CountLines` from main.go, over the sequence of byte slices the
successive `Read` calls deliver.  `bufSize` abstracts the literal
`bufio.MaxScanTokenSize`; `make` zero-fills the buffer. -/
def CountLines (bufSize : Nat) (reads : List (List Char)) : Nat :=
  countLinesLoop reads (List.replicate bufSize (Char.ofNat 0)) 0

/-- The walk body of `AnalyzeRelease` with the line counter as written:
`delivery` maps a file path to the byte slices the runtime hands each
successive `Read` of that file. -/
def walkFilesBuf (bufSize : Nat) (delivery : String → List (List Char)) :
    List GoFile → Nat → Nat → Int → List (String × Nat) →
      Nat × Nat × Int × List (String × Nat)
  | [], totalLines, totalFiles, totalDirSize, linesByLanguage =>
    (totalLines, totalFiles, totalDirSize, linesByLanguage)
  | f :: rest, totalLines, totalFiles, totalDirSize, linesByLanguage =>
    let lines := CountLines bufSize (delivery f.path)
    match langOf f with
    | none =>
      walkFilesBuf bufSize delivery rest (totalLines + lines)
        (totalFiles + 1) (totalDirSize + f.size) linesByLanguage
    | some language =>
      walkFilesBuf bufSize delivery rest (totalLines + lines)
        (totalFiles + 1) (totalDirSize + f.size)
        (bumpLang linesByLanguage language lines)

/-- `AnalyzeRelease` with the line counter as written, the `Read`
chunking made explicit through `delivery`. -/
def analyzeReleaseResultBuf (bufSize : Nat)
    (delivery : String → List (List Char)) (releaseTag : String)
    (files : List GoFile) : AnalysisResult :=
  let r := walkFilesBuf bufSize delivery files 0 0 0 []
  { releaseTag := releaseTag, totalLines := r.1, totalFiles := r.2.1,
    tarSize := 0, totalDirSize := r.2.2.1, linesByLanguage := r.2.2.2 }

/-! ### Pipeline controller (`model.Update`) -/

/-- The `State` enumeration of main.go.  Go declares it as an `int` and
the controller advances it with `m.state++`, so it is embedded as `Nat`
with named constants. -/
def StateInit : Nat := 0

/-- `StateChecking`. -/
def StateChecking : Nat := 1

/-- `StateFetching`. -/
def StateFetching : Nat := 2

/-- `StateDownloadExtract`. -/
def StateDownloadExtract : Nat := 3

/-- `StateAnalyzing`. -/
def StateAnalyzing : Nat := 4

/-- `StateSummary`. -/
def StateSummary : Nat := 5

/-- The commands (`tea.Cmd`) the modelled `Update` cases return. -/
inductive Cmd where
  | spin
  | checkExists (repo token release : String)
  | fetchRels (repo token fromTag toTag regex : String)
  | download (tag dir : String)
  | analyze (dir tag : String)
  | listUpdate
  | fatal
deriving DecidableEq, Repr

/-- The run configuration the controller reads: the flag-bound values
plus the `remove` option, and whether `os.RemoveAll` would fail
(a filesystem fact, carried here so cleanup failure is representable). -/
structure Config where
  ghRepo : String := ""
  ghToken : String := ""
  firstRelease : String := ""
  secondRelease : String := ""
  ignoreRegex : String := ""
  extractionDir : String := "releases"
  removeFlag : Bool := false
  removeFails : Bool := false
deriving DecidableEq, Repr

/-- The controller state: the `model` struct of model.go restricted to
the pipeline fields (spinner, text inputs and window size are rendering
state).  `listCreated` records whether `m.list` is non-nil, which
decides the routing at the end of `Update`. -/
structure Model where
  state : Nat := StateInit
  err : Option PipelineError := none
  existingReleasesCount : Nat := 0
  downloadProgress : Nat := 0
  downloadCacheCount : Nat := 0
  tarSize : List (String × Int) := []
  releases : List Releaseable := []
  analysis : List AnalysisResult := []
  listCreated : Bool := false
deriving DecidableEq, Repr

/-- Go's `m.tarSize[msg.release] = msg.tarSize` on the map modelled as an
association list: overwrite the existing entry or append a new one. -/
def putTarSize (m : List (String × Int)) (k : String) (v : Int) :
    List (String × Int) :=
  match m with
  | [] => [(k, v)]
  | (k2, v2) :: rest =>
    if k2 = k then (k2, v) :: rest else (k2, v2) :: putTarSize rest k v

/-- The code every non-returning (`break`) case of `Update` falls
through to: route list messages once `m.list` exists, otherwise emit the
`fatalErr` command when an error has been recorded. -/
def finishUpdate (m : Model) : Model × List Cmd :=
  if m.listCreated then (m, [.listUpdate])
  else if m.err.isSome then (m, [.fatal])
  else (m, [])

/-- `model.Update` over the pipeline messages, one match arm per `case`
of the Go switch.  Cases that `return m, tea.Batch(...)` in Go return
their commands directly; cases that `break` go through `finishUpdate`.
The `StateSummary` arm also builds the display list (a rendering
concern), recorded here only as `listCreated := true`. -/
def modelUpdate (cfg : Config) (m : Model) : Msg → Model × List Cmd
  | .errMsg e => finishUpdate { m with err := some e }
  | .releaseExists ex release =>
    if ex then
      let m2 := { m with existingReleasesCount := m.existingReleasesCount + 1 }
      if m2.existingReleasesCount = 2 then
        ({ m2 with state := m2.state + 1 },
         [.spin, .fetchRels cfg.ghRepo cfg.ghToken cfg.firstRelease
            cfg.secondRelease cfg.ignoreRegex])
      else finishUpdate m2
    else finishUpdate { m with err := some (.notExists release) }
  | .releasesFetched rels =>
    let m2 := { m with releases := rels, state := m.state + 1 }
    if rels.length = 0 then
      finishUpdate { m2 with err := some .noReleasesFound }
    else
      (m2, .spin :: rels.filterMap
        (fun r => r.tagName.map (fun t => Cmd.download t cfg.extractionDir)))
  | .downloaded release _dest tarSize cached =>
    let m2 := { m with downloadProgress := m.downloadProgress + 1 }
    let m3 :=
      if cached then
        { m2 with downloadCacheCount := m2.downloadCacheCount + 1 }
      else { m2 with tarSize := putTarSize m2.tarSize release tarSize }
    if m3.downloadProgress = m3.releases.length then
      ({ m3 with state := m3.state + 1 },
       .spin :: m3.releases.filterMap
         (fun r => r.tagName.map (fun t => Cmd.analyze cfg.extractionDir t)))
    else finishUpdate m3
  | .analysisDone ar =>
    let analysis0 :=
      if m.analysis.length = 0 then List.replicate m.releases.length {}
      else m.analysis
    match m.releases.findIdx? (fun r => r.tagName == some ar.releaseTag) with
    | none => finishUpdate { m with analysis := analysis0 }
    | some index =>
      let ar2 :=
        match m.tarSize.lookup ar.releaseTag with
        | some v => { ar with tarSize := v }
        | none => ar
      let analysis2 := analysis0.set index ar2
      let m2 := { m with analysis := analysis2 }
      if analysis2.all (fun a => a.releaseTag != "") then
        if cfg.removeFlag && cfg.removeFails then
          finishUpdate { m2 with err := some .removeFailed }
        else
          finishUpdate { m2 with state := m2.state + 1, listCreated := true }
      else finishUpdate m2

/-- Fold `model.Update` over a sequence of messages, keeping the model
(the single-threaded Bubble Tea event loop). -/
def runModel (cfg : Config) (m : Model) (msgs : List Msg) : Model :=
  msgs.foldl (fun m msg => (modelUpdate cfg m msg).1) m

/-- The controller as it sits in `StateFetching`, both existence checks
having succeeded, waiting for the range fetch to report. -/
def fetchingModel : Model :=
  { state := StateFetching, existingReleasesCount := 2 }

/-- Recognises a `gitReleaseDownloadedMsg` (success or cache hit). -/
def isDownloadedMsg : Msg → Bool
  | .downloaded _ _ _ _ => true
  | _ => false

/-- Recognises an `errMsg`. -/
def isErrMsg : Msg → Bool
  | .errMsg _ => true
  | _ => false

/-- Whether a release survives the exclusion filter once collection has
started: it must carry a tag that the pattern does not match. -/
def keepRelease (p : String → Bool) (r : Releaseable) : Bool :=
  match r.tagName with
  | none => false
  | some t => !(p t)

/-- The tag a release contributes to the pipeline bookkeeping: the Go
code dereferences `GetTagName()`, and the controller's completion
sentinel compares tags against the empty string, so the empty string
stands for a missing tag. -/
def tagOf (r : Releaseable) : String :=
  r.tagName.getD ""

/-- The `AnalysisResult` slots mirror the releases: slot `i` carries the
tag of release `i` once that tag's analysis has been processed, and the
zero-value sentinel (empty tag) before. -/
def slotsMatch (rels : List Releaseable) (analysis : List AnalysisResult)
    (processed : List String) : Prop :=
  analysis.length = rels.length ∧
  ∀ i, i < rels.length →
    (analysis.getD i {}).releaseTag
      = if tagOf (rels.getD i ⟨none, 0⟩) ∈ processed
        then tagOf (rels.getD i ⟨none, 0⟩) else ""

/-- The analysis slots during the Analyzing stage: either still
unallocated (the slice is created lazily by the first
`analysisDoneMsg`) or allocated and matching the processed tags. -/
def analysisInv (rels : List Releaseable) (analysis : List AnalysisResult)
    (processed : List String) : Prop :=
  (processed = [] ∧ analysis = []) ∨ slotsMatch rels analysis processed

/-! ### Helper lemmas on the string operations -/

/-- `strings.Split` of a separator-free string is the single field. -/
theorem splitOnChar_not_mem {c : Char} {xs : List Char} (h : c ∉ xs) :
    splitOnChar c xs = [xs] := by
  induction xs with
  | nil => rfl
  | cons x xs ih =>
    have hx : ¬ x = c := fun hxc => h (by simp [hxc])
    have hxs : c ∉ xs := fun hm => h (List.mem_cons_of_mem _ hm)
    simp [splitOnChar, hx, ih hxs]

/-- `strings.Split` peels off a separator-free field before the first
separator occurrence. -/
theorem splitOnChar_append {c : Char} {xs : List Char} (ys : List Char)
    (h : c ∉ xs) :
    splitOnChar c (xs ++ c :: ys) = xs :: splitOnChar c ys := by
  induction xs with
  | nil => simp [splitOnChar]
  | cons x xs ih =>
    have hx : ¬ x = c := fun hxc => h (by simp [hxc])
    have hxs : c ∉ xs := fun hm => h (List.mem_cons_of_mem _ hm)
    have hrec := ih hxs
    simp only [List.cons_append, splitOnChar, if_neg hx, List.append_eq, hrec]

/-- `strings.SplitN(s, "/", 2)[1]` skips the slash-free prefix. -/
theorem afterFirstSlash_append {xs : List Char} (ys : List Char)
    (h : '/' ∉ xs) :
    afterFirstSlash (xs ++ '/' :: ys) = ys := by
  induction xs with
  | nil => simp [afterFirstSlash]
  | cons x xs ih =>
    have hx : ¬ x = '/' := fun hxc => h (by simp [hxc])
    have hxs : '/' ∉ xs := fun hm => h (List.mem_cons_of_mem _ hm)
    simp [afterFirstSlash, hx, ih hxs]

/-- `strings.ReplaceAll(s, "@", "-")` is the identity on `@`-free text. -/
theorem map_replaceAt_not_mem {l : List Char} (h : '@' ∉ l) :
    l.map (fun ch => if ch = '@' then '-' else ch) = l := by
  induction l with
  | nil => rfl
  | cons x xs ih =>
    have hx : ¬ x = '@' := fun hxc => h (by simp [hxc])
    have hxs : '@' ∉ xs := fun hm => h (List.mem_cons_of_mem _ hm)
    simp [hx, ih hxs]

/-! ### C4 — npm URL derivation -/

/-- C4 counterexample: for the tag `@scope/name@1.2.3` the package name
used in the download URL is `@scope/name` — the whole scoped name,
`"@" + split[1]` where the split on `@` is `["", "scope/name", "1.2.3"]`
— and not `@scope` as the claim states. -/
theorem c4_scoped_name_counterexample :
    String.mk (packageNameOf "@scope/name@1.2.3".data) = "@scope/name"
    ∧ ("@scope/name" : String) ≠ "@scope" := by
  constructor
  · rfl
  · decide

/-- C4 (amended): for a tag `@scope/name@version` (with `@`-free scope,
name and version and a slash-free scope) the package name is the full
scoped name `@scope/name` and the archive path component is
`name-version`; for a tag `name@version` (non-empty name, no `@` in
name or version, no `/` anywhere) the package name is `name` and the
path component is `name-version`. -/
theorem c4_npm_url_derivation (scope nm ver : List Char)
    (hs1 : '@' ∉ scope) (hs2 : '/' ∉ scope) (hn1 : '@' ∉ nm)
    (hv1 : '@' ∉ ver) (hn0 : nm ≠ []) (hn2 : '/' ∉ nm) (hv2 : '/' ∉ ver) :
    packageNameOf ('@' :: scope ++ '/' :: nm ++ '@' :: ver)
      = '@' :: scope ++ '/' :: nm
    ∧ pathComponentOf ('@' :: scope ++ '/' :: nm ++ '@' :: ver)
      = nm ++ '-' :: ver
    ∧ packageNameOf (nm ++ '@' :: ver) = nm
    ∧ pathComponentOf (nm ++ '@' :: ver) = nm ++ '-' :: ver := by
  have hmid : '@' ∉ scope ++ '/' :: nm := by
    intro hm
    rcases List.mem_append.mp hm with h | h
    · exact hs1 h
    · rcases List.mem_cons.mp h with h | h
      · exact absurd h (by decide)
      · exact hn1 h
  have hsplitScoped :
      splitOnChar '@' ('@' :: scope ++ '/' :: nm ++ '@' :: ver)
        = [] :: (scope ++ '/' :: nm) :: [ver] := by
    have h1 : splitOnChar '@' ((scope ++ '/' :: nm) ++ '@' :: ver)
        = (scope ++ '/' :: nm) :: splitOnChar '@' ver :=
      splitOnChar_append ver hmid
    have h2 : splitOnChar '@' ver = [ver] := splitOnChar_not_mem hv1
    have hstep : ∀ L, splitOnChar '@' ('@' :: L) = [] :: splitOnChar '@' L := by
      intro L; simp [splitOnChar]
    simp only [List.cons_append, List.append_assoc] at h1 ⊢
    rw [hstep, h1, h2]
  refine ⟨?_, ?_, ?_, ?_⟩
  · show packageNameOf ('@' :: ((scope ++ '/' :: nm) ++ '@' :: ver)) = _
    unfold packageNameOf
    rw [show ('@' :: ((scope ++ '/' :: nm) ++ '@' :: ver))
          = '@' :: scope ++ '/' :: nm ++ '@' :: ver by simp,
        hsplitScoped]
    simp
  · unfold pathComponentOf
    have hmem : ('/' : Char) ∈ '@' :: scope ++ '/' :: nm ++ '@' :: ver := by
      simp
    rw [if_pos hmem]
    have hpre : '/' ∉ ('@' :: scope) := by
      intro hm
      rcases List.mem_cons.mp hm with h | h
      · exact absurd h (by decide)
      · exact hs2 h
    have hafter : afterFirstSlash ('@' :: scope ++ '/' :: (nm ++ '@' :: ver))
        = nm ++ '@' :: ver := afterFirstSlash_append (nm ++ '@' :: ver) hpre
    rw [show ('@' :: scope ++ '/' :: nm ++ '@' :: ver)
          = ('@' :: scope) ++ '/' :: (nm ++ '@' :: ver) by simp, hafter]
    rw [List.map_append, map_replaceAt_not_mem hn1]
    simp [map_replaceAt_not_mem hv1]
  · obtain ⟨x, xs, rfl⟩ := List.exists_cons_of_ne_nil hn0
    have hx : ¬ x = '@' := fun hxc => hn1 (by simp [hxc])
    unfold packageNameOf
    rw [splitOnChar_append ver hn1, splitOnChar_not_mem hv1]
    simp [hx]
  · unfold pathComponentOf
    have hmem : ('/' : Char) ∉ nm ++ '@' :: ver := by
      intro hm
      rcases List.mem_append.mp hm with h | h
      · exact hn2 h
      · rcases List.mem_cons.mp h with h | h
        · exact absurd h (by decide)
        · exact hv2 h
    rw [if_neg hmem]
    rw [List.map_append, map_replaceAt_not_mem hn1]
    simp [map_replaceAt_not_mem hv1]

/-- C4 witness: the amended derivation at the claim's own examples,
tags `@scope/name@1.2.3` and `name@1.2.3`. -/
theorem c4_npm_url_derivation_witness :
    packageNameOf "@scope/name@1.2.3".data = "@scope/name".data
    ∧ pathComponentOf "@scope/name@1.2.3".data = "name-1.2.3".data
    ∧ packageNameOf "name@1.2.3".data = "name".data
    ∧ pathComponentOf "name@1.2.3".data = "name-1.2.3".data := by
  have h := c4_npm_url_derivation "scope".data "name".data "1.2.3".data
    (by decide) (by decide) (by decide) (by decide) (by decide)
    (by decide) (by decide)
  exact h

/-! ### C6, C9, C10 — downloader cache and size reporting -/

/-- A pre-existing destination directory short-circuits the download:
an immediate cache hit with no network call, size unreported, and the
filesystem untouched. -/
theorem downloadRelease_cached (env : DlEnv) (fs : List String)
    (release destDir : String) (h : destPath destDir release ∈ fs) :
    downloadRelease env fs release destDir
      = (.downloaded release (destPath destDir release) 0 true, fs, 0) := by
  unfold downloadRelease
  rw [if_pos h]

/-- After any call that reports a `gitReleaseDownloadedMsg`, the
destination directory exists. -/
theorem downloadedMsg_mem_fs (env : DlEnv) (fs : List String)
    (release destDir : String)
    (h : isDownloadedMsg (downloadRelease env fs release destDir).1 = true) :
    destPath destDir release ∈ (downloadRelease env fs release destDir).2.1 := by
  obtain ⟨mk, net, ex⟩ := env
  by_cases hmem : destPath destDir release ∈ fs
  · unfold downloadRelease
    rw [if_pos hmem]
    exact hmem
  · cases mk with
    | false =>
      unfold downloadRelease at h
      rw [if_neg hmem] at h
      simp [isDownloadedMsg] at h
    | true =>
      unfold downloadRelease
      rw [if_neg hmem]
      rcases net with _ | ⟨status, body⟩
      · simp
      · by_cases h200 : status = 200 <;> by_cases h404 : status = 404 <;>
          cases ex <;> simp [h200, h404]

/-- C6: if a `DownloadGitHubRelease` call for a tag and destination root
reports success (cache hit included), a second call for the same tag and
root — under any network environment — reports `cached = true`, makes
no network request, leaves the filesystem unchanged, and does not report
a size (`tarSize = 0`); and whenever `destRoot/tag` already exists, a
call reports an immediate cache hit with no network call and
`tarSize = 0`. -/
theorem c6_download_cache_behavior (env1 env2 : DlEnv) (fs : List String)
    (release destDir : String)
    (h : isDownloadedMsg (downloadRelease env1 fs release destDir).1 = true) :
    downloadRelease env2 (downloadRelease env1 fs release destDir).2.1
        release destDir
      = (.downloaded release (destPath destDir release) 0 true,
         (downloadRelease env1 fs release destDir).2.1, 0)
    ∧ ∀ (env : DlEnv) (fs0 : List String), destPath destDir release ∈ fs0 →
        downloadRelease env fs0 release destDir
          = (.downloaded release (destPath destDir release) 0 true, fs0, 0) := by
  refine ⟨?_, fun env fs0 h0 => downloadRelease_cached env fs0 release destDir h0⟩
  exact downloadRelease_cached env2 _ release destDir
    (downloadedMsg_mem_fs env1 fs release destDir h)

/-- C6 witness: a concrete successful download followed by a second call
that hits the cache. -/
theorem c6_download_cache_behavior_witness :
    isDownloadedMsg
        (downloadRelease ⟨true, some (200, ['x']), true⟩ [] "a@1" "out").1
      = true
    ∧ downloadRelease ⟨true, some (500, []), false⟩
          (downloadRelease ⟨true, some (200, ['x']), true⟩ [] "a@1" "out").2.1
          "a@1" "out"
        = (.downloaded "a@1" (destPath "out" "a@1") 0 true,
           (downloadRelease ⟨true, some (200, ['x']), true⟩ [] "a@1" "out").2.1,
           0) := by
  refine ⟨by decide, ?_⟩
  exact (c6_download_cache_behavior ⟨true, some (200, ['x']), true⟩
    ⟨true, some (500, []), false⟩ [] "a@1" "out" (by decide)).1

/-- C10: when the destination directory does not exist yet, `MkdirAll`
succeeds, and the download then fails — transport error, non-200
status, or extraction failure — the call reports an error but the
created directory stays on the filesystem, so any subsequent call for
the same tag and destination root reports an immediate cache hit with
no network request, even though no archive was extracted there. -/
theorem c10_failed_download_poisons_cache (env env2 : DlEnv)
    (fs : List String) (release destDir : String)
    (hnot : destPath destDir release ∉ fs) (hmk : env.mkdirOk = true)
    (hfail : env.net = none
      ∨ (∃ status body, env.net = some (status, body) ∧ status ≠ 200)
      ∨ env.extractOk = false) :
    isErrMsg (downloadRelease env fs release destDir).1 = true
    ∧ (downloadRelease env fs release destDir).2.1
        = destPath destDir release :: fs
    ∧ downloadRelease env2 (downloadRelease env fs release destDir).2.1
          release destDir
        = (.downloaded release (destPath destDir release) 0 true,
           destPath destDir release :: fs, 0) := by
  obtain ⟨mk, net, ex⟩ := env
  cases mk with
  | false => simp at hmk
  | true =>
    have hcore : isErrMsg (downloadRelease ⟨true, net, ex⟩ fs release destDir).1
          = true
        ∧ (downloadRelease ⟨true, net, ex⟩ fs release destDir).2.1
          = destPath destDir release :: fs := by
      unfold downloadRelease
      rw [if_neg hnot]
      rcases net with _ | ⟨status, body⟩
      · simp [isErrMsg]
      · rcases hfail with hfail | ⟨s2, b2, hsb, hs⟩ | hfail
        · simp at hfail
        · have hstatus : status ≠ 200 := by
            have : status = s2 := by
              have := hsb
              simp at this
              exact this.1
            rw [this]; exact hs
          by_cases h404 : status = 404 <;>
            simp [isErrMsg, hstatus, h404]
        · have hex : ex = false := hfail
          by_cases h200 : status = 200 <;> by_cases h404 : status = 404 <;>
            simp [isErrMsg, hex, h200, h404]
    refine ⟨hcore.1, hcore.2, ?_⟩
    rw [hcore.2]
    exact downloadRelease_cached env2 _ release destDir (List.mem_cons_self _ _)

/-- C10 witness: a 404 on a fresh destination leaves the directory
behind and the retry hits the cache. -/
theorem c10_failed_download_poisons_cache_witness :
    (destPath "out" "a@1" ∉ ([] : List String))
    ∧ isErrMsg (downloadRelease ⟨true, some (404, []), true⟩ [] "a@1" "out").1
        = true
    ∧ downloadRelease ⟨true, some (200, ['x']), true⟩
          (downloadRelease ⟨true, some (404, []), true⟩ [] "a@1" "out").2.1
          "a@1" "out"
        = (.downloaded "a@1" (destPath "out" "a@1") 0 true,
           destPath "out" "a@1" :: [], 0) := by
  have h := c10_failed_download_poisons_cache ⟨true, some (404, []), true⟩
    ⟨true, some (200, ['x']), true⟩ [] "a@1" "out" (by simp) rfl
    (Or.inr (Or.inl ⟨404, [], rfl, by decide⟩))
  exact ⟨by simp, h.1, h.2.2⟩

/-- The `break` epilogue of `Update` never changes the model. -/
theorem finishUpdate_fst (m : Model) : (finishUpdate m).1 = m := by
  unfold finishUpdate
  by_cases h1 : m.listCreated <;> by_cases h2 : m.err.isSome <;> simp [h1, h2]

/-- C9: a successful non-cached download reports the byte size of the
buffered response body together with `cached = false` and exactly one
network request; the controller records no size for a cache-hit report;
the analyzer itself reports `tarSize = 0`; and an `analysisDoneMsg`
whose tag has no recorded size is stored in its slot unchanged, so the
archive-size field stays `0` for a cache-hit release. -/
theorem c9_archive_size_reporting :
    (∀ (env : DlEnv) (fs : List String) (release destDir : String)
       (body : List Char),
       destPath destDir release ∉ fs → env.mkdirOk = true →
       env.net = some (200, body) → env.extractOk = true →
       downloadRelease env fs release destDir
         = (.downloaded release (destPath destDir release)
              (body.length : Int) false,
            destPath destDir release :: fs, 1))
    ∧ (∀ (cfg : Config) (m : Model) (release dest : String) (ts : Int),
       (modelUpdate cfg m (.downloaded release dest ts true)).1.tarSize
         = m.tarSize)
    ∧ (∀ (releaseTag : String) (files : List GoFile),
       (analyzeReleaseResult releaseTag files).tarSize = 0)
    ∧ (∀ (cfg : Config) (m : Model) (ar : AnalysisResult) (i : Nat),
       m.tarSize.lookup ar.releaseTag = none →
       m.releases.findIdx? (fun r => r.tagName == some ar.releaseTag)
         = some i →
       i < m.analysis.length →
       (modelUpdate cfg m (.analysisDone ar)).1.analysis.getD i default
         = ar) := by
  refine ⟨?_, ?_, ?_, ?_⟩
  · intro env fs release destDir body hnot hmk hnet hex
    obtain ⟨mk, net, ex⟩ := env
    simp only at hmk hnet hex
    subst hmk hnet hex
    unfold downloadRelease
    rw [if_neg hnot]
    simp
  · intro cfg m release dest ts
    unfold modelUpdate
    by_cases hdone : m.downloadProgress + 1 = m.releases.length <;>
      simp [hdone, finishUpdate_fst]
  · intro releaseTag files
    rfl
  · intro cfg m ar i hlk hidx hi
    have hne : ¬ m.analysis.length = 0 := by omega
    simp only [modelUpdate]
    rw [hidx]
    simp only [hlk, if_neg hne]
    by_cases hall : (m.analysis.set i ar).all (fun a => a.releaseTag != "")
    · by_cases hrem : cfg.removeFlag && cfg.removeFails <;>
        · simp [hall, hrem, finishUpdate_fst]
          rw [List.getElem?_set_self (by simpa using hi)]
          rfl
    · simp [hall, finishUpdate_fst]
      rw [List.getElem?_set_self (by simpa using hi)]
      rfl

/-- C9 witness: the four clauses at concrete inputs. -/
theorem c9_archive_size_reporting_witness :
    downloadRelease ⟨true, some (200, ['x', '\n']), true⟩ [] "a@1" "out"
      = (.downloaded "a@1" (destPath "out" "a@1") 2 false,
         destPath "out" "a@1" :: [], 1)
    ∧ (modelUpdate {} { tarSize := [("b@1", 7)] }
         (.downloaded "a@1" "out/a@1" 9 true)).1.tarSize = [("b@1", 7)]
    ∧ (analyzeReleaseResult "a@1" [⟨"p/x.js", ['a', '\n'], 2⟩]).tarSize = 0
    ∧ (modelUpdate {}
         { releases := [⟨some "a@1", 1⟩], analysis := [{}] }
         (.analysisDone { releaseTag := "a@1", totalLines := 1 })).1.analysis.getD
           0 default
        = { releaseTag := "a@1", totalLines := 1 } := by
  refine ⟨?_, ?_, ?_, ?_⟩
  · exact c9_archive_size_reporting.1 ⟨true, some (200, ['x', '\n']), true⟩ []
      "a@1" "out" ['x', '\n'] (by simp) rfl rfl rfl
  · exact c9_archive_size_reporting.2.1 {} { tarSize := [("b@1", 7)] }
      "a@1" "out/a@1" 9
  · exact c9_archive_size_reporting.2.2.1 "a@1" [⟨"p/x.js", ['a', '\n'], 2⟩]
  · exact c9_archive_size_reporting.2.2.2 {}
      { releases := [⟨some "a@1", 1⟩], analysis := [{}] }
      { releaseTag := "a@1", totalLines := 1 } 0 (by decide) (by decide)
      (by decide)

/-! ### Scan-loop lemmas (C1, C3, C8) -/

/-- Unfolding `scanList` past a nil-tagged release. -/
theorem scanList_cons_none (p : String → Bool) (fromTag toTag : String)
    (r : Releaseable) (l : List Releaseable) (fF fT : Bool)
    (acc : List Releaseable) (h : r.tagName = none) :
    scanList p fromTag toTag (r :: l) fF fT acc
      = scanList p fromTag toTag l fF fT acc := by
  simp only [scanList, h]

/-- Unfolding `scanList` past an excluded release. -/
theorem scanList_cons_excluded (p : String → Bool) (fromTag toTag : String)
    (r : Releaseable) (l : List Releaseable) (fF fT : Bool)
    (acc : List Releaseable) (tag : String) (h : r.tagName = some tag)
    (hp : p tag = true) :
    scanList p fromTag toTag (r :: l) fF fT acc
      = scanList p fromTag toTag l fF fT acc := by
  simp only [scanList, h]
  rw [if_pos hp]

/-- Unfolding `scanList` at the `break` once both boundaries are set. -/
theorem scanList_cons_break (p : String → Bool) (fromTag toTag : String)
    (r : Releaseable) (l : List Releaseable) (acc : List Releaseable)
    (tag : String) (h : r.tagName = some tag) (hp : p tag = false) :
    scanList p fromTag toTag (r :: l) true true acc = (true, true, acc) := by
  simp only [scanList, h]
  rw [if_neg (by simp [hp] : ¬ p tag = true)]
  rfl

/-- Unfolding `scanList` at a kept release while at least one boundary
is still missing: update the flags, then either keep skipping (no
boundary seen yet) or append. -/
theorem scanList_cons_step (p : String → Bool) (fromTag toTag : String)
    (r : Releaseable) (l : List Releaseable) (fF fT : Bool)
    (acc : List Releaseable) (tag : String) (h : r.tagName = some tag)
    (hp : p tag = false) (hb : (fF && fT) = false) :
    scanList p fromTag toTag (r :: l) fF fT acc
      = (if (!(fF || (tag == fromTag))
            && !(fT || (!(tag == fromTag) && (tag == toTag)))) = true
         then scanList p fromTag toTag l (fF || (tag == fromTag))
           (fT || (!(tag == fromTag) && (tag == toTag))) acc
         else scanList p fromTag toTag l (fF || (tag == fromTag))
           (fT || (!(tag == fromTag) && (tag == toTag))) (acc ++ [r])) := by
  simp only [scanList, h]
  rw [if_neg (by simp [hp] : ¬ p tag = true),
    if_neg (by simp [hb] : ¬ (fF && fT) = true)]

/-- Once both boundaries have been found, the scan appends nothing: the
first release that is neither nil-tagged nor excluded hits the `break`,
and the others are skipped. -/
theorem scanList_both_found (p : String → Bool) (fromTag toTag : String)
    (l : List Releaseable) (acc : List Releaseable) :
    scanList p fromTag toTag l true true acc = (true, true, acc) := by
  induction l with
  | nil => rfl
  | cons r rest ih =>
    cases hr : r.tagName with
    | none => rw [scanList_cons_none p fromTag toTag r rest true true acc hr, ih]
    | some tag =>
      by_cases hp : p tag
      · rw [scanList_cons_excluded p fromTag toTag r rest true true acc tag hr hp,
          ih]
      · exact scanList_cons_break p fromTag toTag r rest acc tag hr
          (by simpa using hp)

/-- The scan of a concatenation is the scan of the second part from the
state the first part left behind. -/
theorem scanList_append (p : String → Bool) (fromTag toTag : String)
    (xs : List Releaseable) :
    ∀ (ys : List Releaseable) (fF fT : Bool) (acc : List Releaseable),
    scanList p fromTag toTag (xs ++ ys) fF fT acc
      = scanList p fromTag toTag ys
          (scanList p fromTag toTag xs fF fT acc).1
          (scanList p fromTag toTag xs fF fT acc).2.1
          (scanList p fromTag toTag xs fF fT acc).2.2 := by
  induction xs with
  | nil => intro ys fF fT acc; rfl
  | cons r rest ih =>
    intro ys fF fT acc
    rw [List.cons_append]
    cases hr : r.tagName with
    | none =>
      rw [scanList_cons_none p fromTag toTag r (rest ++ ys) fF fT acc hr,
        scanList_cons_none p fromTag toTag r rest fF fT acc hr]
      exact ih ys fF fT acc
    | some tag =>
      by_cases hp : p tag
      · rw [scanList_cons_excluded p fromTag toTag r (rest ++ ys) fF fT acc
          tag hr hp, scanList_cons_excluded p fromTag toTag r rest fF fT acc
          tag hr hp]
        exact ih ys fF fT acc
      · have hp2 : p tag = false := by simpa using hp
        by_cases hb : (fF && fT) = true
        · obtain ⟨h1, h2⟩ := Bool.and_eq_true_iff.mp hb
          subst h1 h2
          rw [scanList_cons_break p fromTag toTag r (rest ++ ys) acc tag hr hp2,
            scanList_cons_break p fromTag toTag r rest acc tag hr hp2]
          exact (scanList_both_found p fromTag toTag ys acc).symm
        · have hb2 : (fF && fT) = false := by simpa using hb
          rw [scanList_cons_step p fromTag toTag r (rest ++ ys) fF fT acc
            tag hr hp2 hb2, scanList_cons_step p fromTag toTag r rest fF fT acc
            tag hr hp2 hb2]
          by_cases hc : (!(fF || (tag == fromTag))
              && !(fT || (!(tag == fromTag) && (tag == toTag)))) = true
          · rw [if_pos hc, if_pos hc]
            exact ih ys _ _ acc
          · rw [if_neg hc, if_neg hc]
            exact ih ys _ _ (acc ++ [r])

/-- A stretch of releases carrying no boundary tag leaves a
both-flags-unset scan state unchanged and appends nothing. -/
theorem scanList_no_boundary (p : String → Bool) (fromTag toTag : String)
    (l : List Releaseable)
    (h : ∀ x ∈ l, ∀ t, x.tagName = some t → t ≠ fromTag ∧ t ≠ toTag) :
    ∀ acc, scanList p fromTag toTag l false false acc = (false, false, acc) := by
  induction l with
  | nil => intro acc; rfl
  | cons r rest ih =>
    intro acc
    have hrest : ∀ x ∈ rest, ∀ t, x.tagName = some t →
        t ≠ fromTag ∧ t ≠ toTag :=
      fun x hx => h x (List.mem_cons_of_mem _ hx)
    cases hr : r.tagName with
    | none => rw [scanList_cons_none p fromTag toTag r rest false false acc hr]
              exact ih hrest acc
    | some tag =>
      obtain ⟨hf, ht⟩ := h r (List.mem_cons_self _ _) tag hr
      by_cases hp : p tag
      · rw [scanList_cons_excluded p fromTag toTag r rest false false acc
          tag hr hp]
        exact ih hrest acc
      · rw [scanList_cons_step p fromTag toTag r rest false false acc tag hr
          (by simpa using hp) rfl]
        have hf2 : (tag == fromTag) = false := by
          simp [hf]
        have ht2 : (tag == toTag) = false := by
          simp [ht]
        rw [hf2, ht2]
        simpa using ih hrest acc

/-- Everything the scan appends passed the exclusion filter: a release
in the scan output is either carried over from the accumulator or has a
tag the pattern does not match. -/
theorem scanList_mem (p : String → Bool) (fromTag toTag : String)
    (l : List Releaseable) :
    ∀ (fF fT : Bool) (acc : List Releaseable) (r : Releaseable),
    r ∈ (scanList p fromTag toTag l fF fT acc).2.2 →
    r ∈ acc ∨ ∃ t, r.tagName = some t ∧ p t = false := by
  induction l with
  | nil => intro fF fT acc r hr; exact Or.inl hr
  | cons x rest ih =>
    intro fF fT acc r hr
    cases hx : x.tagName with
    | none =>
      rw [scanList_cons_none p fromTag toTag x rest fF fT acc hx] at hr
      exact ih fF fT acc r hr
    | some tag =>
      by_cases hp : p tag
      · rw [scanList_cons_excluded p fromTag toTag x rest fF fT acc tag hx hp]
          at hr
        exact ih fF fT acc r hr
      · have hp2 : p tag = false := by simpa using hp
        by_cases hb : (fF && fT) = true
        · obtain ⟨h1, h2⟩ := Bool.and_eq_true_iff.mp hb
          subst h1 h2
          rw [scanList_cons_break p fromTag toTag x rest acc tag hx hp2] at hr
          exact Or.inl hr
        · rw [scanList_cons_step p fromTag toTag x rest fF fT acc tag hx hp2
            (by simpa using hb)] at hr
          by_cases hc : (!(fF || (tag == fromTag))
              && !(fT || (!(tag == fromTag) && (tag == toTag)))) = true
          · rw [if_pos hc] at hr
            exact ih _ _ acc r hr
          · rw [if_neg hc] at hr
            rcases ih _ _ (acc ++ [x]) r hr with hmem | hok
            · rcases List.mem_append.mp hmem with hmem | hmem
              · exact Or.inl hmem
              · rcases List.mem_singleton.mp hmem with rfl
                exact Or.inr ⟨tag, hx, hp2⟩
            · exact Or.inr hok

/-- Membership is preserved by the sort's insertion step. -/
theorem mem_insertDesc (x r : Releaseable) (l : List Releaseable) :
    x ∈ insertDesc r l ↔ x = r ∨ x ∈ l := by
  induction l with
  | nil => simp [insertDesc]
  | cons y ys ih =>
    unfold insertDesc
    by_cases hc : y.createdAt < r.createdAt
    · simp [hc]
    · simp only [if_neg hc, List.mem_cons, ih]
      tauto

/-- The per-page sort permutes the page: membership is unchanged. -/
theorem mem_sortDesc (x : Releaseable) (l : List Releaseable) :
    x ∈ sortDesc l ↔ x ∈ l := by
  induction l with
  | nil => simp [sortDesc]
  | cons y ys ih =>
    show x ∈ insertDesc y (sortDesc ys) ↔ _
    rw [mem_insertDesc]
    simp only [List.mem_cons, ih]

/-- Every release the pagination loop returns passed the exclusion
filter (or was already in the accumulator). -/
theorem fetchLoop_mem (api : Nat → List Releaseable) (p : String → Bool)
    (fromTag toTag : String) :
    ∀ (fuel page : Nat) (fF fT : Bool) (acc res : List Releaseable)
      (r : Releaseable),
    fetchLoopFuel api p fromTag toTag fuel page fF fT acc = some res →
    r ∈ res → r ∈ acc ∨ ∃ t, r.tagName = some t ∧ p t = false := by
  intro fuel
  induction fuel with
  | zero => intro page fF fT acc res r hres; simp [fetchLoopFuel] at hres
  | succ n ih =>
    intro page fF fT acc res r hres hr
    simp only [fetchLoopFuel] at hres
    by_cases hc : ((scanList p fromTag toTag (sortDesc (api page)) fF fT acc).1
        && (scanList p fromTag toTag (sortDesc (api page)) fF fT acc).2.1) = true
    · rw [if_pos hc] at hres
      obtain rfl : (scanList p fromTag toTag (sortDesc (api page)) fF fT acc).2.2
          = res := by
        injection hres
      exact scanList_mem p fromTag toTag (sortDesc (api page)) fF fT acc r hr
    · rw [if_neg hc] at hres
      rcases ih (page + 1) _ _ _ res r hres hr with hacc | hok
      · exact scanList_mem p fromTag toTag (sortDesc (api page)) fF fT acc r hacc
      · exact Or.inr hok

/-! ### C3 — exclusion filter removes matching releases, boundaries included -/

/-- C3: a release whose tag matches the exclusion pattern never appears
in the sequence `GetGitHubReleases` returns — the filter runs before the
boundary checks, so this holds even when the tag equals `from` or `to`
(take `t = fromTag` or `t = toTag`). -/
theorem c3_excluded_release_absent (api : Nat → List Releaseable)
    (p : String → Bool) (fromTag toTag : String) (fuel : Nat)
    (res : List Releaseable) (r : Releaseable) (t : String)
    (hres : getGitHubReleases api p fromTag toTag fuel = some res)
    (ht : r.tagName = some t) (hm : p t = true) : r ∉ res := by
  intro hr
  rcases fetchLoop_mem api p fromTag toTag fuel 1 false false [] res r hres hr
    with hacc | ⟨t2, ht2, hp2⟩
  · exact absurd hacc (List.not_mem_nil r)
  · rw [ht] at ht2
    injection ht2 with ht3
    subst ht3
    rw [hm] at hp2
    exact Bool.true_eq_false.mp hp2

/-- C3 witness: a release tagged `skip` — created between the two
boundaries and matching the pattern — is absent from the concrete
result, which still spans `v2` down to `v1`. -/
theorem c3_excluded_release_absent_witness :
    getGitHubReleases
        (fun n => [[⟨some "skip", 3⟩, ⟨some "v2", 2⟩, ⟨some "v1", 1⟩]].getD
          (n - 1) [])
        (fun s => s == "skip") "v1" "v2" 1
      = some [⟨some "v2", 2⟩, ⟨some "v1", 1⟩]
    ∧ (⟨some "skip", 3⟩ : Releaseable)
        ∉ [(⟨some "v2", 2⟩ : Releaseable), ⟨some "v1", 1⟩] := by
  refine ⟨by decide, ?_⟩
  exact c3_excluded_release_absent
    (fun n => [[⟨some "skip", 3⟩, ⟨some "v2", 2⟩, ⟨some "v1", 1⟩]].getD
      (n - 1) [])
    (fun s => s == "skip") "v1" "v2" 1 [⟨some "v2", 2⟩, ⟨some "v1", 1⟩]
    ⟨some "skip", 3⟩ "skip" (by decide) rfl (by decide)

/-! ### C8 — the pagination loop does not terminate without boundaries -/

/-- When no listed release ever carries a boundary tag, the loop's
`break` is unreachable: for every amount of fuel the loop is still
running.  This is the divergence of the Go `for` loop — each iteration
scans a (possibly empty) page, finds neither boundary, and increments
the page counter forever. -/
theorem fetchLoop_no_boundary (api : Nat → List Releaseable)
    (p : String → Bool) (fromTag toTag : String)
    (h : ∀ n, ∀ x ∈ api n, ∀ t, x.tagName = some t →
      t ≠ fromTag ∧ t ≠ toTag) :
    ∀ (fuel page : Nat) (acc : List Releaseable),
    fetchLoopFuel api p fromTag toTag fuel page false false acc = none := by
  intro fuel
  induction fuel with
  | zero => intro page acc; rfl
  | succ n ih =>
    intro page acc
    have hpage : ∀ x ∈ sortDesc (api page), ∀ t, x.tagName = some t →
        t ≠ fromTag ∧ t ≠ toTag :=
      fun x hx => h page x ((mem_sortDesc x (api page)).mp hx)
    simp only [fetchLoopFuel,
      scanList_no_boundary p fromTag toTag (sortDesc (api page)) hpage acc]
    exact ih (page + 1) acc

/-- C8: if neither boundary tag ever appears in the listing, the fetch
of `GetGitHubReleases` never finishes — no amount of fuel makes the
loop return, refuting the claim that it terminates when the pages are
exhausted (the loop does not even stop on empty pages). -/
theorem c8_fetch_diverges_without_boundaries (api : Nat → List Releaseable)
    (p : String → Bool) (fromTag toTag : String)
    (h : ∀ n, ∀ x ∈ api n, ∀ t, x.tagName = some t →
      t ≠ fromTag ∧ t ≠ toTag) :
    ∀ fuel, getGitHubReleases api p fromTag toTag fuel = none := by
  intro fuel
  exact fetchLoop_no_boundary api p fromTag toTag h fuel 1 []

/-- C8 witness: an exhausted listing (every page empty) never lets the
fetch return. -/
theorem c8_fetch_diverges_without_boundaries_witness :
    getGitHubReleases (fun _ => []) (fun _ => false) "v1" "v2" 9 = none := by
  exact c8_fetch_diverges_without_boundaries (fun _ => []) (fun _ => false)
    "v1" "v2" (fun n x hx => absurd hx (List.not_mem_nil x)) 9

/-! ### C5 — analyzer totals, and the line counter as written -/

/-- Reading the map after `linesByLanguage[k] += v`: the bucket for `k`
grows by `v`, every other bucket is unchanged. -/
theorem lookup_bumpLang (m : List (String × Nat)) (k : String) (v : Nat)
    (L : String) :
    ((bumpLang m k v).lookup L).getD 0
      = if L = k then (m.lookup L).getD 0 + v else (m.lookup L).getD 0 := by
  induction m with
  | nil =>
    by_cases hL : L = k
    · subst hL
      simp [bumpLang, List.lookup]
    · have hbeq : (L == k) = false := by simp [hL]
      simp [bumpLang, List.lookup, hbeq, hL]
  | cons e rest ih =>
    obtain ⟨k2, v2⟩ := e
    by_cases h2 : k2 = k
    · subst h2
      by_cases hL : L = k2
      · subst hL
        simp [bumpLang, List.lookup]
      · have hbeq : (L == k2) = false := by simp [hL]
        simp [bumpLang, List.lookup, hbeq, hL]
    · by_cases hL : L = k2
      · subst hL
        simp only [bumpLang, if_neg h2]
        simp [List.lookup, h2]
      · have hbeq : (L == k2) = false := by simp [hL]
        simp only [bumpLang, if_neg h2]
        simp [List.lookup, hbeq, ih]

/-- The walk of `AnalyzeRelease` computes, over any starting
accumulators: total lines = sum of per-file line counts, total files =
file count, total size = sum of on-disk sizes, and each language bucket
= the summed line counts of the files attributed to that language. -/
theorem walkFiles_spec (files : List GoFile) :
    ∀ (tl tf : Nat) (ts : Int) (lbl : List (String × Nat)),
    (walkFiles files tl tf ts lbl).1
        = tl + (files.map (fun f => countLines f.content)).sum
    ∧ (walkFiles files tl tf ts lbl).2.1 = tf + files.length
    ∧ (walkFiles files tl tf ts lbl).2.2.1
        = ts + (files.map (fun f => f.size)).sum
    ∧ ∀ L, (((walkFiles files tl tf ts lbl).2.2.2).lookup L).getD 0
        = (lbl.lookup L).getD 0
          + ((files.filter (fun f => langOf f == some L)).map
              (fun f => countLines f.content)).sum := by
  induction files with
  | nil => intro tl tf ts lbl; simp [walkFiles]
  | cons f rest ih =>
    intro tl tf ts lbl
    cases hlang : langOf f with
    | none =>
      have hstep : walkFiles (f :: rest) tl tf ts lbl
          = walkFiles rest (tl + countLines f.content) (tf + 1)
              (ts + f.size) lbl := by
        simp only [walkFiles, hlang]
      rw [hstep]
      obtain ⟨h1, h2, h3, h4⟩ := ih (tl + countLines f.content) (tf + 1)
        (ts + f.size) lbl
      refine ⟨by rw [h1]; simp; ring, by rw [h2]; simp; ring,
        by rw [h3]; simp; ring, ?_⟩
      intro L
      rw [h4 L]
      have hf : (langOf f == some L) = false := by
        simp [hlang]
      simp [hf]
    | some lang =>
      have hstep : walkFiles (f :: rest) tl tf ts lbl
          = walkFiles rest (tl + countLines f.content) (tf + 1)
              (ts + f.size) (bumpLang lbl lang (countLines f.content)) := by
        simp only [walkFiles, hlang]
      rw [hstep]
      obtain ⟨h1, h2, h3, h4⟩ := ih (tl + countLines f.content) (tf + 1)
        (ts + f.size) (bumpLang lbl lang (countLines f.content))
      refine ⟨by rw [h1]; simp; ring, by rw [h2]; simp; ring,
        by rw [h3]; simp; ring, ?_⟩
      intro L
      rw [h4 L, lookup_bumpLang lbl lang (countLines f.content) L]
      by_cases hL : L = lang
      · subst hL
        have hf : (langOf f == some L) = true := by
          simp [hlang]
        simp [hf]
        ring
      · have hf : (langOf f == some L) = false := by
          simp only [hlang, beq_eq_false_iff_ne, ne_eq, Option.some.injEq]
          exact fun h => hL h.symm
        simp [hf, hL]

/-- A list with no newline byte has no `IndexByte` hit. -/
theorem indexOfNl_not_mem (l : List Char) (h : ∀ c ∈ l, c ≠ '\n') :
    indexOfNl l = none := by
  induction l with
  | nil => rfl
  | cons c t ih =>
    simp only [indexOfNl, if_neg (h c (List.mem_cons_self c t)),
      ih (fun x hx => h x (List.mem_cons_of_mem c hx))]
    rfl

/-- The inner scan stops when `IndexByte` reports no newline. -/
theorem scanNlLoop_none (rest : List Char)
    (bufferSize buffPosition count : Nat)
    (h : indexOfNl rest = none) :
    scanNlLoop rest bufferSize buffPosition count = count := by
  unfold scanNlLoop
  split
  · rfl
  · rename_i i heq
    rw [h] at heq
    simp at heq

/-- The inner scan counts the newline `IndexByte` finds and advances
past it whenever `bufferSize ≠ buffPosition` — also when the hit lies
beyond `bufferSize`, in bytes a previous `Read` left behind. -/
theorem scanNlLoop_step (rest : List Char)
    (bufferSize buffPosition count i : Nat)
    (h : indexOfNl rest = some i) (hne : bufferSize ≠ buffPosition) :
    scanNlLoop rest bufferSize buffPosition count
      = scanNlLoop (rest.drop (i + 1)) bufferSize (buffPosition + i + 1)
          (count + 1) := by
  conv_lhs => rw [scanNlLoop]
  split
  · rename_i heq
    rw [h] at heq
    simp at heq
  · rename_i j heq
    rw [h] at heq
    injection heq with hj
    subst hj
    rw [if_neg hne]

/-- Delivering the 5 bytes `"a\nbbc"` as the two reads `"a\nbb"` and
`"c"` makes `CountLines` report 2: the second scan finds the stale
newline the first read left at buffer position 1 and `bufferSize ==
buffPosition` (1 = 0, then 1 = 2) never stops it. -/
theorem countLines_two_reads (bufSize : Nat) :
    CountLines bufSize [['a', '\n', 'b', 'b'], ['c']] = 2 := by
  have ht0 : ∀ c ∈ (List.replicate bufSize (Char.ofNat 0)).drop 4,
      c ≠ '\n' := by
    intro c hc
    have h2 := List.mem_replicate.mp (List.drop_subset _ _ hc)
    rw [h2.2]
    decide
  set t0 := (List.replicate bufSize (Char.ofNat 0)).drop 4 with ht0def
  have hidxbb : indexOfNl ('b' :: 'b' :: t0) = none := by
    apply indexOfNl_not_mem
    intro c hc
    rcases List.mem_cons.mp hc with h | hc2
    · rw [h]; decide
    rcases List.mem_cons.mp hc2 with h | hc3
    · rw [h]; decide
    · exact ht0 c hc3
  have hidx1 : indexOfNl ('a' :: '\n' :: 'b' :: 'b' :: t0) = some 1 := by
    simp only [indexOfNl, if_neg (by decide : ¬ ('a' = '\n')),
      if_pos (rfl : '\n' = '\n')]
    rfl
  have hidx2 : indexOfNl ('c' :: '\n' :: 'b' :: 'b' :: t0) = some 1 := by
    simp only [indexOfNl, if_neg (by decide : ¬ ('c' = '\n')),
      if_pos (rfl : '\n' = '\n')]
    rfl
  have hscan1 : scanNlLoop ('a' :: '\n' :: 'b' :: 'b' :: t0) 4 0 0 = 1 := by
    rw [scanNlLoop_step _ 4 0 0 1 hidx1 (by omega)]
    exact scanNlLoop_none _ 4 2 1 hidxbb
  have hscan2 : scanNlLoop ('c' :: '\n' :: 'b' :: 'b' :: t0) 1 0 1 = 2 := by
    rw [scanNlLoop_step _ 1 0 1 1 hidx2 (by omega)]
    exact scanNlLoop_none _ 1 2 2 hidxbb
  show countLinesLoop [['a', '\n', 'b', 'b'], ['c']]
      (List.replicate bufSize (Char.ofNat 0)) 0 = 2
  rw [countLinesLoop]
  rw [show ((['a', '\n', 'b', 'b'] : List Char)
      ++ (List.replicate bufSize (Char.ofNat 0)).drop
           (['a', '\n', 'b', 'b'] : List Char).length)
      = 'a' :: '\n' :: 'b' :: 'b' :: t0 from rfl]
  rw [show (['a', '\n', 'b', 'b'] : List Char).length = 4 from rfl, hscan1]
  rw [countLinesLoop]
  rw [show ((['c'] : List Char)
      ++ ('a' :: '\n' :: 'b' :: 'b' :: t0).drop (['c'] : List Char).length)
      = 'c' :: '\n' :: 'b' :: 'b' :: t0 from rfl]
  rw [show (['c'] : List Char).length = 1 from rfl, hscan2]
  rw [countLinesLoop]

/-- C5: the analyzer's total line count is NOT the sum of the per-file
newline counts.  With a one-file tree whose 5 bytes `"a\nbbc"` reach
`CountLines` in two reads `"a\nbb"` then `"c"` — a legal delivery for
any buffer of at least 4 bytes, and exactly what happens at the real
64 KiB buffer to a file that crosses it without a trailing newline —
`AnalyzeRelease` reports 2 lines for a file containing a single
newline byte: the second scan re-counts the newline the first read
left in the reused buffer, because the inner loop breaks only on
`i == -1` or `bufferSize == buffPosition`.  The conjuncts record the
program result, the trace's legality, its content, and the claimed
sum it diverges from. -/
theorem c5_analyzer_overcounts_lines (bufSize : Nat) (h4 : 4 ≤ bufSize) :
    (analyzeReleaseResultBuf bufSize
        (fun _ => [['a', '\n', 'b', 'b'], ['c']])
        "a@1" [⟨"p/x.js", ['a', '\n', 'b', 'b', 'c'], 5⟩]).totalLines = 2
    ∧ (∀ chunk ∈ ([['a', '\n', 'b', 'b'], ['c']] : List (List Char)),
        chunk.length ≤ bufSize)
    ∧ ([['a', '\n', 'b', 'b'], ['c']] : List (List Char)).flatten
        = ['a', '\n', 'b', 'b', 'c']
    ∧ (([⟨"p/x.js", ['a', '\n', 'b', 'b', 'c'], 5⟩] : List GoFile).map
        (fun f => countLines f.content)).sum = 1 := by
  refine ⟨?_, ?_, by decide, by decide⟩
  · have hlang : langOf ⟨"p/x.js", ['a', '\n', 'b', 'b', 'c'], 5⟩
        = some "JavaScript" := by decide
    simp only [analyzeReleaseResultBuf, walkFilesBuf, hlang]
    rw [countLines_two_reads bufSize]
  · intro chunk hc
    rcases List.mem_cons.mp hc with h | hc2
    · rw [h]
      show 4 ≤ bufSize
      exact h4
    rcases List.mem_cons.mp hc2 with h | hc3
    · rw [h]
      show 1 ≤ bufSize
      omega
    · exact absurd hc3 (List.not_mem_nil chunk)

/-- C5 witness: the divergence at the program's actual buffer size,
`bufio.MaxScanTokenSize` = 64 KiB. -/
theorem c5_analyzer_overcounts_lines_witness :
    4 ≤ MaxScanTokenSize
    ∧ ((analyzeReleaseResultBuf MaxScanTokenSize
          (fun _ => [['a', '\n', 'b', 'b'], ['c']])
          "a@1" [⟨"p/x.js", ['a', '\n', 'b', 'b', 'c'], 5⟩]).totalLines = 2
       ∧ (∀ chunk ∈ ([['a', '\n', 'b', 'b'], ['c']] : List (List Char)),
           chunk.length ≤ MaxScanTokenSize)
       ∧ ([['a', '\n', 'b', 'b'], ['c']] : List (List Char)).flatten
           = ['a', '\n', 'b', 'b', 'c']
       ∧ (([⟨"p/x.js", ['a', '\n', 'b', 'b', 'c'], 5⟩] : List GoFile).map
           (fun f => countLines f.content)).sum = 1) :=
  ⟨by decide, c5_analyzer_overcounts_lines MaxScanTokenSize (by decide)⟩

/-! ### C7 — behavior on an empty fetched range -/

/-- C7 counterexample: on an empty release sequence the controller does
advance its state counter into `StateDownloadExtract` — `m.state++`
runs before the emptiness check — while also recording the
"no releases found" error; there is no separate error state it could
move to instead. -/
theorem c7_empty_fetch_counterexample :
    (modelUpdate {} fetchingModel (.releasesFetched [])).1.state
        = StateDownloadExtract
    ∧ (modelUpdate {} fetchingModel (.releasesFetched [])).1.err
        = some .noReleasesFound := by
  constructor <;> rfl

/-- C7 (amended): on a fetched sequence the controller always advances
to `StateDownloadExtract`; when the sequence is empty it additionally
records the "no releases found" error and emits only the fatal command
(halting the run, no downloads), and when it is non-empty it records no
error and launches one download per tagged release. -/
theorem c7_empty_fetch_error (cfg : Config) (m : Model)
    (rels : List Releaseable) (hstate : m.state = StateFetching)
    (herr : m.err = none) (hlist : m.listCreated = false) :
    (modelUpdate cfg m (.releasesFetched rels)).1.state = StateDownloadExtract
    ∧ (rels = [] →
        (modelUpdate cfg m (.releasesFetched rels)).1.err
            = some .noReleasesFound
        ∧ (modelUpdate cfg m (.releasesFetched rels)).2 = [.fatal])
    ∧ (rels ≠ [] →
        (modelUpdate cfg m (.releasesFetched rels)).1.err = none
        ∧ (modelUpdate cfg m (.releasesFetched rels)).2
            = .spin :: rels.filterMap
                (fun rel => rel.tagName.map
                  (fun t => Cmd.download t cfg.extractionDir))) := by
  cases rels with
  | nil =>
    refine ⟨?_, fun _ => ⟨?_, ?_⟩, fun hne => absurd rfl hne⟩ <;>
      simp [modelUpdate, finishUpdate, hstate, herr, hlist, StateFetching,
        StateDownloadExtract]
  | cons r rest =>
    refine ⟨?_, fun he => absurd he (by simp), fun _ => ⟨?_, ?_⟩⟩ <;>
      simp [modelUpdate, hstate, herr, StateFetching, StateDownloadExtract]

/-- C7 witness: the amended behavior at a one-release fetch result. -/
theorem c7_empty_fetch_error_witness :
    (modelUpdate {} fetchingModel
        (.releasesFetched [⟨some "v1", 1⟩])).1.state = StateDownloadExtract
    ∧ (modelUpdate {} fetchingModel
        (.releasesFetched [⟨some "v1", 1⟩])).1.err = none
    ∧ (modelUpdate {} fetchingModel (.releasesFetched [⟨some "v1", 1⟩])).2
        = [.spin, .download "v1" "releases"] := by
  have h := c7_empty_fetch_error {} fetchingModel [⟨some "v1", 1⟩] rfl rfl rfl
  have h2 := h.2.2 (by simp)
  exact ⟨h.1, h2.1, by rw [h2.2]; rfl⟩

/-! ### C1 — order and endpoints of the fetched range -/

/-- Reaching the newer boundary `to` while nothing has been collected
yet: the release is appended and `foundTo` is set. -/
theorem scanList_pickup_to (p : String → Bool) (fromTag toTag : String)
    (toRel : Releaseable) (rest : List Releaseable) (acc : List Releaseable)
    (hto : toRel.tagName = some toTag) (hpt : p toTag = false)
    (hne : fromTag ≠ toTag) :
    scanList p fromTag toTag (toRel :: rest) false false acc
      = scanList p fromTag toTag rest false true (acc ++ [toRel]) := by
  have hne2 : ¬ toTag = fromTag := fun h => hne h.symm
  have hbeqf : (toTag == fromTag) = false := by simp [hne2]
  rw [scanList_cons_step p fromTag toTag toRel rest false false acc toTag hto
    hpt rfl]
  simp [hbeqf]

/-- Between the boundaries with `foundTo` set: every release that
survives the filter is collected, the flags do not change. -/
theorem scanList_collect (p : String → Bool) (fromTag toTag : String)
    (B : List Releaseable)
    (hB : ∀ x ∈ B, ∀ t, x.tagName = some t → t ≠ fromTag ∧ t ≠ toTag) :
    ∀ acc, scanList p fromTag toTag B false true acc
      = (false, true, acc ++ B.filter (keepRelease p)) := by
  induction B with
  | nil => intro acc; simp [scanList]
  | cons x rest ih =>
    intro acc
    have hrest : ∀ y ∈ rest, ∀ t, y.tagName = some t →
        t ≠ fromTag ∧ t ≠ toTag :=
      fun y hy => hB y (List.mem_cons_of_mem _ hy)
    cases hx : x.tagName with
    | none =>
      rw [scanList_cons_none p fromTag toTag x rest false true acc hx,
        ih hrest acc]
      simp [List.filter, keepRelease, hx]
    | some tag =>
      obtain ⟨hf, ht⟩ := hB x (List.mem_cons_self _ _) tag hx
      by_cases hp : p tag
      · rw [scanList_cons_excluded p fromTag toTag x rest false true acc
          tag hx hp, ih hrest acc]
        have hkeep : keepRelease p x = false := by
          simp [keepRelease, hx, hp]
        simp [List.filter, hkeep]
      · have hp2 : p tag = false := by simpa using hp
        rw [scanList_cons_step p fromTag toTag x rest false true acc tag hx
          hp2 rfl]
        have hbeqf : (tag == fromTag) = false := by simp [hf]
        have hkeep : keepRelease p x = true := by
          simp [keepRelease, hx, hp2]
        simp only [hbeqf, Bool.false_or, Bool.true_or, Bool.not_true,
          Bool.not_false, Bool.true_and, Bool.and_false, Bool.false_and,
          Bool.false_eq_true, if_false]
        rw [ih hrest (acc ++ [x])]
        simp [List.filter_cons, hkeep]

/-- Reaching the older boundary `from` with `foundTo` already set: the
release is appended, both flags are set, and the scan stops collecting
for good. -/
theorem scanList_pickup_from (p : String → Bool) (fromTag toTag : String)
    (fromRel : Releaseable) (C : List Releaseable) (acc : List Releaseable)
    (hfrom : fromRel.tagName = some fromTag) (hpf : p fromTag = false) :
    scanList p fromTag toTag (fromRel :: C) false true acc
      = (true, true, acc ++ [fromRel]) := by
  rw [scanList_cons_step p fromTag toTag fromRel C false true acc fromTag
    hfrom hpf rfl]
  simp only [beq_self_eq_true, Bool.false_or, Bool.true_or, Bool.not_true,
    Bool.not_false, Bool.true_and, Bool.false_and, Bool.and_false,
    Bool.false_eq_true, if_false]
  exact scanList_both_found p fromTag toTag C (acc ++ [fromRel])

/-- The pagination loop over a finite listing, given at least one unit
of fuel per page, returns exactly the flat scan of the concatenation of
the sorted pages — provided that flat scan does find both boundaries
(the loop checks its `break` condition only at page ends, but once both
flags hold the scan collects nothing further, so cutting mid-page and
cutting at the page end coincide). -/
theorem fetchLoop_flat (api : Nat → List Releaseable) (p : String → Bool)
    (fromTag toTag : String) :
    ∀ (pl : List (List Releaseable)) (page : Nat) (fF fT : Bool)
      (acc : List Releaseable) (fuel : Nat),
    pl.length ≤ fuel →
    (∀ i, i < pl.length → api (page + i) = pl.getD i []) →
    ¬ (fF = true ∧ fT = true) →
    (scanList p fromTag toTag ((pl.map sortDesc).join) fF fT acc).1 = true →
    (scanList p fromTag toTag ((pl.map sortDesc).join) fF fT acc).2.1 = true →
    fetchLoopFuel api p fromTag toTag fuel page fF fT acc
      = some (scanList p fromTag toTag ((pl.map sortDesc).join) fF fT acc).2.2 := by
  intro pl
  induction pl with
  | nil =>
    intro page fF fT acc fuel _ _ hnb h1 h2
    exact absurd ⟨h1, h2⟩ hnb
  | cons pg rest ih =>
    intro page fF fT acc fuel hfuel hapi hnb h1 h2
    have hfl : (pg :: rest).length = rest.length + 1 := by simp
    cases fuel with
    | zero => omega
    | succ n =>
      have hpg : api page = pg := by
        have := hapi 0 (by simp)
        simpa using this
      have hjoin : ((pg :: rest).map sortDesc).join
          = sortDesc pg ++ ((rest.map sortDesc).join) := by
        simp
      rw [hjoin] at h1 h2 ⊢
      rw [scanList_append p fromTag toTag (sortDesc pg)
        ((rest.map sortDesc).join) fF fT acc] at h1 h2 ⊢
      simp only [fetchLoopFuel, hpg]
      by_cases hbr : ((scanList p fromTag toTag (sortDesc pg) fF fT acc).1
          && (scanList p fromTag toTag (sortDesc pg) fF fT acc).2.1) = true
      · rw [if_pos hbr]
        obtain ⟨hb1, hb2⟩ := Bool.and_eq_true_iff.mp hbr
        rw [hb1, hb2,
          scanList_both_found p fromTag toTag ((rest.map sortDesc).join)
            (scanList p fromTag toTag (sortDesc pg) fF fT acc).2.2]
      · rw [if_neg hbr]
        have hnb2 : ¬ ((scanList p fromTag toTag (sortDesc pg) fF fT acc).1
            = true
            ∧ (scanList p fromTag toTag (sortDesc pg) fF fT acc).2.1 = true) := by
          intro ⟨ha, hb⟩
          exact hbr (by rw [ha, hb]; rfl)
        have hapi2 : ∀ i, i < rest.length → api (page + 1 + i)
            = rest.getD i [] := by
          intro i hi
          have := hapi (i + 1) (by simp; omega)
          rw [show page + (i + 1) = page + 1 + i by omega] at this
          simpa using this
        exact ih (page + 1) _ _ _ n (by omega) hapi2 hnb2 h1 h2

/-- C1 (amended): over a newest-first listing that contains each
boundary exactly once — decomposed as `A ++ to :: B ++ from :: C` with
no boundary tags in `A` or `B` — with neither boundary matching the
exclusion pattern, `GetGitHubReleases` returns the `to`-release, then
the surviving releases between the boundaries, then the `from`-release:
the sequence is sorted descending by creation time (newest first), its
first element is the `to` boundary and its last the `from` boundary —
not ascending/from-first as the claim states. -/
theorem c1_range_fetch_descending (api : Nat → List Releaseable)
    (p : String → Bool) (fromTag toTag : String)
    (pl : List (List Releaseable)) (A B C : List Releaseable)
    (toRel fromRel : Releaseable) (fuel : Nat)
    (hfuel : pl.length ≤ fuel)
    (hapi : ∀ i, i < pl.length → api (1 + i) = pl.getD i [])
    (hS : (pl.map sortDesc).join = A ++ toRel :: (B ++ fromRel :: C))
    (hA : ∀ x ∈ A, ∀ t, x.tagName = some t → t ≠ fromTag ∧ t ≠ toTag)
    (hB : ∀ x ∈ B, ∀ t, x.tagName = some t → t ≠ fromTag ∧ t ≠ toTag)
    (hto : toRel.tagName = some toTag) (hfrom : fromRel.tagName = some fromTag)
    (hpt : p toTag = false) (hpf : p fromTag = false) (hne : fromTag ≠ toTag)
    (hsorted : List.Pairwise (fun a b => b.createdAt < a.createdAt)
      ((pl.map sortDesc).join)) :
    getGitHubReleases api p fromTag toTag fuel
      = some (toRel :: (B.filter (keepRelease p) ++ [fromRel]))
    ∧ (toRel :: (B.filter (keepRelease p) ++ [fromRel])).head? = some toRel
    ∧ (toRel :: (B.filter (keepRelease p) ++ [fromRel])).getLast?
        = some fromRel
    ∧ List.Pairwise (fun a b => b.createdAt < a.createdAt)
        (toRel :: (B.filter (keepRelease p) ++ [fromRel])) := by
  have hscan : scanList p fromTag toTag ((pl.map sortDesc).join) false false []
      = (true, true, toRel :: (B.filter (keepRelease p) ++ [fromRel])) := by
    rw [hS, scanList_append p fromTag toTag A (toRel :: (B ++ fromRel :: C))
      false false [], scanList_no_boundary p fromTag toTag A hA []]
    rw [scanList_pickup_to p fromTag toTag toRel (B ++ fromRel :: C) []
      hto hpt hne]
    rw [scanList_append p fromTag toTag B (fromRel :: C) false true
      ([] ++ [toRel]), scanList_collect p fromTag toTag B hB ([] ++ [toRel])]
    rw [scanList_pickup_from p fromTag toTag fromRel C
      (([] ++ [toRel]) ++ B.filter (keepRelease p)) hfrom hpf]
    simp
  refine ⟨?_, rfl, ?_, ?_⟩
  · have := fetchLoop_flat api p fromTag toTag pl 1 false false [] fuel hfuel
      hapi (by simp) (by rw [hscan]) (by rw [hscan])
    rw [hscan] at this
    exact this
  · rw [show toRel :: (B.filter (keepRelease p) ++ [fromRel])
        = (toRel :: B.filter (keepRelease p)) ++ [fromRel] by simp]
    exact List.getLast?_concat _
  · have hsub : List.Sublist (toRel :: (B.filter (keepRelease p) ++ [fromRel]))
        ((pl.map sortDesc).join) := by
      rw [hS]
      have s1 : List.Sublist (B.filter (keepRelease p)) B :=
        List.filter_sublist _
      have s2 : List.Sublist [fromRel] (fromRel :: C) :=
        List.cons_sublist_cons.mpr (List.nil_sublist C)
      have s3 : List.Sublist (B.filter (keepRelease p) ++ [fromRel])
          (B ++ fromRel :: C) :=
        List.Sublist.append s1 s2
      have s4 : List.Sublist (toRel :: (B.filter (keepRelease p) ++ [fromRel]))
          (toRel :: (B ++ fromRel :: C)) :=
        List.cons_sublist_cons.mpr s3
      exact s4.trans (List.sublist_append_right A _)
    exact hsorted.sublist hsub

/-- C1 counterexample: for a valid inclusive range over two releases —
`from = v1` created at time 1, `to = v2` created at time 2, no
exclusions — the fetch returns `[v2, v1]`: the sequence is not sorted
ascending by creation time, its first element's tag is `to` (not
`from`) and its last element's tag is `from` (not `to`). -/
theorem c1_ascending_from_first_counterexample :
    getGitHubReleases
        (fun n => [[(⟨some "v2", 2⟩ : Releaseable), ⟨some "v1", 1⟩]].getD
          (n - 1) [])
        (fun _ => false) "v1" "v2" 1
      = some [⟨some "v2", 2⟩, ⟨some "v1", 1⟩]
    ∧ ¬ (List.Pairwise (fun a b => a.createdAt ≤ b.createdAt)
          [(⟨some "v2", 2⟩ : Releaseable), ⟨some "v1", 1⟩]
        ∧ ([(⟨some "v2", 2⟩ : Releaseable), ⟨some "v1", 1⟩].head?.map
            Releaseable.tagName) = some (some "v1")
        ∧ ([(⟨some "v2", 2⟩ : Releaseable), ⟨some "v1", 1⟩].getLast?.map
            Releaseable.tagName) = some (some "v2")) := by
  constructor
  · decide
  · decide

/-- C1 witness: the amended theorem at the two-release range. -/
theorem c1_range_fetch_descending_witness :
    getGitHubReleases
        (fun n => [[(⟨some "v2", 2⟩ : Releaseable), ⟨some "v1", 1⟩]].getD
          (n - 1) [])
        (fun _ => false) "v1" "v2" 1
      = some [⟨some "v2", 2⟩, ⟨some "v1", 1⟩]
    ∧ ([(⟨some "v2", 2⟩ : Releaseable), ⟨some "v1", 1⟩]).head?
        = some ⟨some "v2", 2⟩
    ∧ ([(⟨some "v2", 2⟩ : Releaseable), ⟨some "v1", 1⟩]).getLast?
        = some ⟨some "v1", 1⟩
    ∧ List.Pairwise (fun a b => b.createdAt < a.createdAt)
        [(⟨some "v2", 2⟩ : Releaseable), ⟨some "v1", 1⟩] := by
  exact c1_range_fetch_descending
    (fun n => [[(⟨some "v2", 2⟩ : Releaseable), ⟨some "v1", 1⟩]].getD
      (n - 1) [])
    (fun _ => false) "v1" "v2"
    [[⟨some "v2", 2⟩, ⟨some "v1", 1⟩]] [] [] []
    ⟨some "v2", 2⟩ ⟨some "v1", 1⟩ 1
    (by decide) (by decide) (by decide)
    (fun x hx => absurd hx (List.not_mem_nil x))
    (fun x hx => absurd hx (List.not_mem_nil x))
    rfl rfl rfl rfl (by decide) (by decide)

/-! ### C2 — stage transitions of the pipeline controller -/

/-- Handling one `gitReleaseDownloadedMsg`: the progress counter goes up
by one, the state advances exactly when it reaches the release count,
and the fetched data, analysis slots, error and list are untouched. -/
theorem update_downloaded_fields (cfg : Config) (m : Model)
    (release dest : String) (ts : Int) (cached : Bool) :
    (modelUpdate cfg m (.downloaded release dest ts cached)).1.releases
        = m.releases
    ∧ (modelUpdate cfg m (.downloaded release dest ts cached)).1.analysis
        = m.analysis
    ∧ (modelUpdate cfg m (.downloaded release dest ts cached)).1.err = m.err
    ∧ (modelUpdate cfg m (.downloaded release dest ts cached)).1.listCreated
        = m.listCreated
    ∧ (modelUpdate cfg m (.downloaded release dest ts cached)).1.downloadProgress
        = m.downloadProgress + 1
    ∧ (modelUpdate cfg m (.downloaded release dest ts cached)).1.state
        = if m.downloadProgress + 1 = m.releases.length
          then m.state + 1 else m.state := by
  cases cached <;>
    by_cases hdone : m.downloadProgress + 1 = m.releases.length <;>
    simp [modelUpdate, finishUpdate_fst, hdone]

/-- Running a batch of download-completion events: progress accumulates
one per event, everything else stays, and the state advances exactly
when the batch brings the progress to the release count. -/
theorem run_downloads (cfg : Config) :
    ∀ (ds : List Msg) (m : Model),
    (∀ x ∈ ds, isDownloadedMsg x = true) →
    m.downloadProgress + ds.length ≤ m.releases.length →
    (runModel cfg m ds).releases = m.releases
    ∧ (runModel cfg m ds).analysis = m.analysis
    ∧ (runModel cfg m ds).err = m.err
    ∧ (runModel cfg m ds).listCreated = m.listCreated
    ∧ (runModel cfg m ds).downloadProgress
        = m.downloadProgress + ds.length
    ∧ (runModel cfg m ds).state
        = if ds ≠ [] ∧ m.downloadProgress + ds.length = m.releases.length
          then m.state + 1 else m.state := by
  intro ds
  induction ds with
  | nil =>
    intro m _ _
    refine ⟨rfl, rfl, rfl, rfl, by simp [runModel], ?_⟩
    simp [runModel]
  | cons d rest ih =>
    intro m hall hlen
    cases d with
    | downloaded release dest ts cached =>
      have hstep := update_downloaded_fields cfg m release dest ts cached
      set m1 := (modelUpdate cfg m (.downloaded release dest ts cached)).1
        with hm1
      have hrun : runModel cfg m (Msg.downloaded release dest ts cached :: rest)
          = runModel cfg m1 rest := rfl
      have hrest : ∀ x ∈ rest, isDownloadedMsg x = true :=
        fun x hx => hall x (List.mem_cons_of_mem _ hx)
      have hlen2 : m1.downloadProgress + rest.length ≤ m1.releases.length := by
        rw [hstep.2.2.2.2.1, hstep.1]
        have hx := hlen
        simp only [List.length_cons] at hx
        omega
      obtain ⟨r1, r2, r3, r4, r5, r6⟩ := ih m1 hrest hlen2
      rw [hrun]
      refine ⟨by rw [r1, hstep.1], by rw [r2, hstep.2.1],
        by rw [r3, hstep.2.2.1], by rw [r4, hstep.2.2.2.1],
        by rw [r5, hstep.2.2.2.2.1]; simp only [List.length_cons]; omega, ?_⟩
      rw [r6, hstep.2.2.2.2.2, hstep.1, hstep.2.2.2.2.1]
      by_cases hfire : m.downloadProgress + 1 = m.releases.length
      · have hrest0 : rest = [] := by
          have : (rest : List Msg).length = 0 := by
            simp at hlen
            omega
          exact List.length_eq_zero.mp this
        subst hrest0
        simp [hfire]
      · have hcond : (Msg.downloaded release dest ts cached :: rest ≠ []
            ∧ m.downloadProgress
                + (Msg.downloaded release dest ts cached :: rest).length
              = m.releases.length)
            ↔ (rest ≠ [] ∧ m.downloadProgress + 1 + rest.length
                = m.releases.length) := by
          constructor
          · intro ⟨_, hx⟩
            refine ⟨?_, by simp at hx; omega⟩
            intro hr0
            subst hr0
            simp at hx
            exact hfire hx
          · intro ⟨_, hx⟩
            exact ⟨by simp, by simp; omega⟩
        by_cases h2 : rest ≠ [] ∧ m.downloadProgress + 1 + rest.length
            = m.releases.length
        · rw [if_pos h2, if_pos (hcond.mpr h2), if_neg hfire]
        · rw [if_neg h2, if_neg (fun hx => h2 (hcond.mp hx)), if_neg hfire]
    | errMsg e => exact absurd (hall _ (List.mem_cons_self _ _)) (by simp [isDownloadedMsg])
    | releaseExists a b => exact absurd (hall _ (List.mem_cons_self _ _)) (by simp [isDownloadedMsg])
    | releasesFetched rels => exact absurd (hall _ (List.mem_cons_self _ _)) (by simp [isDownloadedMsg])
    | analysisDone ar => exact absurd (hall _ (List.mem_cons_self _ _)) (by simp [isDownloadedMsg])

/-- `List.findIdx?` returns the first index satisfying the predicate,
stated through `getD` and with the running offset made explicit. -/
theorem findIdx?_go_spec {α : Type} (p : α → Bool) (d : α) :
    ∀ (l : List α) (j i : Nat), j < l.length →
    p (l.getD j d) = true →
    (∀ k, k < j → p (l.getD k d) = false) →
    List.findIdx? p l i = some (i + j) := by
  intro l
  induction l with
  | nil => intro j i hj; simp at hj
  | cons x xs ih =>
    intro j i hj hpj hk
    cases j with
    | zero =>
      rw [List.findIdx?_cons, if_pos (by simpa using hpj)]
      simp
    | succ j2 =>
      have hx : p x = false := by simpa using hk 0 (Nat.succ_pos _)
      rw [List.findIdx?_cons, if_neg (by simp [hx])]
      have := ih j2 (i + 1) (by simpa using hj) (by simpa using hpj)
        (fun k hlt => by simpa using hk (k + 1) (by omega))
      rw [this]
      congr 1
      omega

/-- The controller's index search for an `analysisDoneMsg`: with
distinct non-empty tags, the search finds exactly the position of the
release carrying the reported tag. -/
theorem findIdx_tag (rels : List Releaseable) (tg : String) (j : Nat)
    (hnodup : (rels.map tagOf).Nodup)
    (hsome : ∀ r ∈ rels, ∃ t, r.tagName = some t ∧ t ≠ "")
    (hj : j < rels.length)
    (htag : tagOf (rels.getD j ⟨none, 0⟩) = tg) :
    rels.findIdx? (fun r => r.tagName == some tg) = some j := by
  have hpj : (fun r => r.tagName == some tg) (rels.getD j ⟨none, 0⟩) = true := by
    have hmem : rels.getD j ⟨none, 0⟩ ∈ rels := by
      rw [List.getD_eq_getElem _ _ hj]
      exact List.getElem_mem hj
    obtain ⟨t, htn, _⟩ := hsome _ hmem
    have htag2 := htag
    unfold tagOf at htag2
    rw [htn] at htag2
    simp only [Option.getD_some] at htag2
    show ((rels.getD j ⟨none, 0⟩).tagName == some tg) = true
    rw [htn, htag2]
    simp
  have hbefore : ∀ k, k < j →
      (fun r => r.tagName == some tg) (rels.getD k ⟨none, 0⟩) = false := by
    intro k hk
    by_contra hcon
    have htrue : (rels.getD k ⟨none, 0⟩).tagName == some tg := by
      simpa using hcon
    have hkj : k < rels.length := by omega
    have heqtag : tagOf (rels.getD k ⟨none, 0⟩) = tg := by
      have heq2 := beq_iff_eq.mp htrue
      unfold tagOf
      rw [heq2]
      rfl
    have hk2 : k < (rels.map tagOf).length := by simpa using hkj
    have hj2 : j < (rels.map tagOf).length := by simpa using hj
    have hmapeq : (rels.map tagOf)[k] = (rels.map tagOf)[j] := by
      rw [List.getElem_map, List.getElem_map,
        ← List.getD_eq_getElem rels ⟨none, 0⟩ hkj,
        ← List.getD_eq_getElem rels ⟨none, 0⟩ hj, heqtag, htag]
    have := (List.Nodup.getElem_inj_iff hnodup).mp hmapeq
    omega
  have := findIdx?_go_spec (fun r => r.tagName == some tg) ⟨none, 0⟩ rels j 0
    hj hpj hbefore
  simpa using this

/-- With every release carrying a non-empty tag, the indexed tag is
never the sentinel value. -/
theorem tagOf_getD_ne_empty (rels : List Releaseable)
    (hsome : ∀ r ∈ rels, ∃ t, r.tagName = some t ∧ t ≠ "")
    (i : Nat) (hi : i < rels.length) :
    tagOf (rels.getD i ⟨none, 0⟩) ≠ "" := by
  have hmem : rels.getD i ⟨none, 0⟩ ∈ rels := by
    rw [List.getD_eq_getElem _ _ hi]
    exact List.getElem_mem hi
  obtain ⟨t, htn, hne⟩ := hsome _ hmem
  unfold tagOf
  rw [htn]
  simpa using hne

/-- The controller's completion sentinel, read through the slot
invariant: the `all`-check over the slots succeeds exactly when every
release's tag has been processed. -/
theorem all_slots_check (rels : List Releaseable)
    (analysis : List AnalysisResult) (processed : List String)
    (hsm : slotsMatch rels analysis processed)
    (hsome : ∀ r ∈ rels, ∃ t, r.tagName = some t ∧ t ≠ "") :
    (analysis.all (fun a => a.releaseTag != "")) = true
      ↔ ∀ i, i < rels.length → tagOf (rels.getD i ⟨none, 0⟩) ∈ processed := by
  obtain ⟨hlen, hslot⟩ := hsm
  rw [List.all_eq_true]
  constructor
  · intro hall i hi
    have hilen : i < analysis.length := by omega
    have hmem : analysis.getD i {} ∈ analysis := by
      rw [List.getD_eq_getElem _ _ hilen]
      exact List.getElem_mem hilen
    have hcheck := hall _ hmem
    rw [hslot i hi] at hcheck
    by_contra hnot
    rw [if_neg hnot] at hcheck
    simp at hcheck
  · intro hcov a hmem
    obtain ⟨i, hilen, ha⟩ := List.mem_iff_getElem.mp hmem
    have hi : i < rels.length := by omega
    have hgd : analysis.getD i {} = a := by
      rw [List.getD_eq_getElem _ _ hilen, ha]
    have := hslot i hi
    rw [hgd, if_pos (hcov i hi)] at this
    rw [this]
    simpa using tagOf_getD_ne_empty rels hsome i hi

/-- Writing an analysis result into the slot of its release preserves
the slot invariant, with the written tag now processed. -/
theorem slotsMatch_set (rels : List Releaseable)
    (analysis : List AnalysisResult) (processed : List String) (j : Nat)
    (ar2 : AnalysisResult)
    (hsm : slotsMatch rels analysis processed)
    (hnodup : (rels.map tagOf).Nodup)
    (hj : j < rels.length)
    (htag : tagOf (rels.getD j ⟨none, 0⟩) = ar2.releaseTag) :
    slotsMatch rels (analysis.set j ar2) (processed ++ [ar2.releaseTag]) := by
  obtain ⟨hlen, hslot⟩ := hsm
  refine ⟨by simpa using hlen, ?_⟩
  intro i hi
  by_cases hij : i = j
  · subst hij
    have hilen : i < analysis.length := by omega
    rw [List.getD_eq_getElem?_getD,
      List.getElem?_set_self (by simpa using hilen)]
    simp only [Option.getD_some]
    rw [← htag, if_pos (List.mem_append_right _ (List.mem_singleton_self _))]
  · have hgd : (analysis.set j ar2).getD i {} = analysis.getD i {} := by
      rw [List.getD_eq_getElem?_getD, List.getD_eq_getElem?_getD,
        List.getElem?_set_ne (fun h => hij h.symm)]
    rw [hgd, hslot i hi]
    have htagne : tagOf (rels.getD i ⟨none, 0⟩) ≠ ar2.releaseTag := by
      rw [← htag]
      intro heq
      apply hij
      have hi2 : i < (rels.map tagOf).length := by simpa using hi
      have hj2 : j < (rels.map tagOf).length := by simpa using hj
      have hmapeq : (rels.map tagOf)[i] = (rels.map tagOf)[j] := by
        rw [List.getElem_map, List.getElem_map,
          ← List.getD_eq_getElem rels ⟨none, 0⟩ hi,
          ← List.getD_eq_getElem rels ⟨none, 0⟩ hj, heq]
      exact (List.Nodup.getElem_inj_iff hnodup).mp hmapeq
    by_cases hin : tagOf (rels.getD i ⟨none, 0⟩) ∈ processed
    · rw [if_pos hin, if_pos (List.mem_append_left _ hin)]
    · rw [if_neg hin, if_neg ?_]
      intro hmem
      rcases List.mem_append.mp hmem with h | h
      · exact hin h
      · exact htagne (List.mem_singleton.mp h)

/-- Closed form of the `analysisDoneMsg` case of `Update` once the index
search has succeeded: initialize the slots if needed, write the result
(with the recorded archive size if any), and advance to the summary
when every slot is filled. -/
theorem update_analysisDone_eq (cfg : Config) (m : Model)
    (ar : AnalysisResult) (j : Nat)
    (hfind : m.releases.findIdx? (fun r => r.tagName == some ar.releaseTag)
      = some j) :
    (modelUpdate cfg m (.analysisDone ar)).1
      = (let analysis2 :=
           (if m.analysis.length = 0
            then List.replicate m.releases.length ({} : AnalysisResult)
            else m.analysis).set j
             (match m.tarSize.lookup ar.releaseTag with
              | some v => { ar with tarSize := v }
              | none => ar);
         if analysis2.all (fun a => a.releaseTag != "") then
           if cfg.removeFlag && cfg.removeFails then
             { m with
               analysis := analysis2
               err := some PipelineError.removeFailed }
           else
             { m with
               analysis := analysis2
               state := m.state + 1
               listCreated := true }
         else { m with analysis := analysis2 }) := by
  simp only [modelUpdate]
  rw [hfind]
  cases hlk : m.tarSize.lookup ar.releaseTag <;>
    simp only [hlk] <;>
    split_ifs <;>
    simp [finishUpdate_fst]

/-- Handling one `analysisDoneMsg` for a not-yet-processed release tag:
the result lands in that release's slot, the invariant advances by that
tag, and the controller moves on (to the summary, with the display list
created) exactly when every tag has now been processed. -/
theorem update_analysisDone_step (cfg : Config) (m : Model)
    (ar : AnalysisResult) (processed : List String) (j : Nat)
    (hrf : cfg.removeFails = false)
    (hsome : ∀ r ∈ m.releases, ∃ t, r.tagName = some t ∧ t ≠ "")
    (hnodup : (m.releases.map tagOf).Nodup)
    (hinv : analysisInv m.releases m.analysis processed)
    (hj : j < m.releases.length)
    (htag : tagOf (m.releases.getD j ⟨none, 0⟩) = ar.releaseTag) :
    (modelUpdate cfg m (.analysisDone ar)).1.releases = m.releases
    ∧ (modelUpdate cfg m (.analysisDone ar)).1.err = m.err
    ∧ slotsMatch m.releases
        (modelUpdate cfg m (.analysisDone ar)).1.analysis
        (processed ++ [ar.releaseTag])
    ∧ (if ∀ i, i < m.releases.length →
          tagOf (m.releases.getD i ⟨none, 0⟩) ∈ processed ++ [ar.releaseTag]
       then (modelUpdate cfg m (.analysisDone ar)).1.state = m.state + 1
            ∧ (modelUpdate cfg m (.analysisDone ar)).1.listCreated = true
       else (modelUpdate cfg m (.analysisDone ar)).1.state = m.state
            ∧ (modelUpdate cfg m (.analysisDone ar)).1.listCreated
                = m.listCreated) := by
  have hfind := findIdx_tag m.releases ar.releaseTag j hnodup hsome hj htag
  have heq := update_analysisDone_eq cfg m ar j hfind
  rw [heq]
  set A0 := (if m.analysis.length = 0
      then List.replicate m.releases.length ({} : AnalysisResult)
      else m.analysis) with hA0
  set ar2 := (match m.tarSize.lookup ar.releaseTag with
      | some v => { ar with tarSize := v }
      | none => ar) with har2
  have har2tag : ar2.releaseTag = ar.releaseTag := by
    rw [har2]
    cases m.tarSize.lookup ar.releaseTag <;> rfl
  have hana0 : slotsMatch m.releases A0 processed := by
    rcases hinv with ⟨hp, ha⟩ | hsm
    · subst hp
      have hA0r : A0 = List.replicate m.releases.length ({} : AnalysisResult) := by
        rw [hA0, ha]
        simp
      rw [hA0r]
      refine ⟨by simp, ?_⟩
      intro i hi
      rw [List.getD_eq_getElem _ _ (by simpa using hi),
        List.getElem_replicate]
      simp
    · by_cases hz : m.analysis.length = 0
      · exfalso
        have := hsm.1
        omega
      · rw [hA0, if_neg hz]
        exact hsm
  have hsm2 : slotsMatch m.releases (A0.set j ar2)
      (processed ++ [ar.releaseTag]) := by
    have hs := slotsMatch_set m.releases A0 processed j ar2 hana0 hnodup hj
      (by rw [har2tag]; exact htag)
    rw [har2tag] at hs
    exact hs
  have hallspec := all_slots_check m.releases (A0.set j ar2)
    (processed ++ [ar.releaseTag]) hsm2 hsome
  by_cases hcov : ∀ i, i < m.releases.length →
      tagOf (m.releases.getD i ⟨none, 0⟩) ∈ processed ++ [ar.releaseTag]
  · have hall : ((A0.set j ar2).all (fun a => a.releaseTag != "")) = true :=
      hallspec.mpr hcov
    rw [if_pos hcov]
    simp only [hall, if_pos rfl, hrf, Bool.and_false, Bool.false_eq_true,
      if_false]
    refine ⟨?_, ?_, hsm2, ?_, ?_⟩ <;> simp
  · have hall : ((A0.set j ar2).all (fun a => a.releaseTag != "")) = false :=
      Bool.eq_false_iff.mpr (fun h => hcov (hallspec.mp h))
    rw [if_neg hcov]
    simp only [hall, Bool.false_eq_true, if_false]
    refine ⟨?_, ?_, hsm2, ?_, ?_⟩ <;> simp

/-- Running a batch of analysis-completion events, one per distinct
pending release tag: slots fill according to the processed tags, the
fetched data and error stay untouched, and the controller advances to
the summary exactly when the batch completes the coverage of all
release tags — which can only happen at the batch's last event. -/
theorem run_analyses (cfg : Config) (hrf : cfg.removeFails = false) :
    ∀ (ars : List AnalysisResult) (m : Model) (processed : List String),
    (∀ r ∈ m.releases, ∃ t, r.tagName = some t ∧ t ≠ "") →
    (m.releases.map tagOf).Nodup →
    (processed ++ ars.map AnalysisResult.releaseTag).Nodup →
    (∀ a ∈ ars, a.releaseTag ∈ m.releases.map tagOf) →
    m.listCreated = false →
    analysisInv m.releases m.analysis processed →
    (runModel cfg m (ars.map Msg.analysisDone)).releases = m.releases
    ∧ (runModel cfg m (ars.map Msg.analysisDone)).err = m.err
    ∧ analysisInv m.releases
        (runModel cfg m (ars.map Msg.analysisDone)).analysis
        (processed ++ ars.map AnalysisResult.releaseTag)
    ∧ (if (∀ i, i < m.releases.length →
            tagOf (m.releases.getD i ⟨none, 0⟩)
              ∈ processed ++ ars.map AnalysisResult.releaseTag) ∧ ars ≠ []
       then (runModel cfg m (ars.map Msg.analysisDone)).state = m.state + 1
            ∧ (runModel cfg m (ars.map Msg.analysisDone)).listCreated = true
       else (runModel cfg m (ars.map Msg.analysisDone)).state = m.state
            ∧ (runModel cfg m (ars.map Msg.analysisDone)).listCreated
                = false) := by
  intro ars
  induction ars with
  | nil =>
    intro m processed _ _ _ _ hlist hinv
    refine ⟨rfl, rfl, by simpa using hinv, ?_⟩
    rw [if_neg (by simp)]
    exact ⟨rfl, hlist⟩
  | cons a rest ih =>
    intro m processed hsome hnodup hnodup2 hmem hlist hinv
    obtain ⟨j, hjlen, hjtag⟩ :=
      List.mem_iff_getElem.mp (hmem a (List.mem_cons_self _ _))
    have hj : j < m.releases.length := by simpa using hjlen
    have htag : tagOf (m.releases.getD j ⟨none, 0⟩) = a.releaseTag := by
      rw [List.getD_eq_getElem _ _ hj]
      rw [List.getElem_map] at hjtag
      exact hjtag
    have hstep := update_analysisDone_step cfg m a processed j hrf hsome
      hnodup hinv hj htag
    obtain ⟨hs1, hs2, hs3, hs4⟩ := hstep
    set m1 := (modelUpdate cfg m (.analysisDone a)).1 with hm1
    have hrun : runModel cfg m ((a :: rest).map Msg.analysisDone)
        = runModel cfg m1 (rest.map Msg.analysisDone) := rfl
    rw [hrun]
    by_cases hcov1 : ∀ i, i < m.releases.length →
        tagOf (m.releases.getD i ⟨none, 0⟩) ∈ processed ++ [a.releaseTag]
    · -- the first event already completes the coverage: it must be last
      have hrest : rest = [] := by
        cases hr : rest with
        | nil => rfl
        | cons b rest2 =>
          exfalso
          subst hr
          obtain ⟨k, hklen, hktag⟩ :=
            List.mem_iff_getElem.mp
              (hmem b (List.mem_cons_of_mem _ (List.mem_cons_self _ _)))
          have hk : k < m.releases.length := by simpa using hklen
          have hkd : tagOf (m.releases.getD k ⟨none, 0⟩) = b.releaseTag := by
            rw [List.getD_eq_getElem _ _ hk]
            rw [List.getElem_map] at hktag
            exact hktag
          have hbmem : b.releaseTag ∈ processed ++ [a.releaseTag] := by
            rw [← hkd]
            exact hcov1 k hk
          rcases List.nodup_append.mp hnodup2 with ⟨_, hnr, hdisj⟩
          rcases List.mem_append.mp hbmem with hbp | hba
          · exact hdisj hbp (by simp)
          · have hba2 : b.releaseTag = a.releaseTag :=
              List.mem_singleton.mp hba
            have hnr2 : (a.releaseTag
                :: (b :: rest2).map AnalysisResult.releaseTag).Nodup := by
              simpa using hnr
            exact (List.nodup_cons.mp hnr2).1 (by simp [← hba2])
      subst hrest
      rw [if_pos hcov1] at hs4
      refine ⟨by simpa using hs1, by simpa using hs2, Or.inr (by simpa using hs3),
        ?_⟩
      rw [if_pos ⟨by simpa using hcov1, by simp⟩]
      exact ⟨by simpa using hs4.1, by simpa using hs4.2⟩
    · rw [if_neg hcov1] at hs4
      have hLL : (processed ++ [a.releaseTag])
            ++ rest.map AnalysisResult.releaseTag
          = processed ++ (a :: rest).map AnalysisResult.releaseTag := by
        simp
      have ihres := ih m1 (processed ++ [a.releaseTag])
        (by rw [hs1]; exact hsome)
        (by rw [hs1]; exact hnodup)
        (by rw [hLL]; exact hnodup2)
        (by rw [hs1]; exact fun x hx => hmem x (List.mem_cons_of_mem _ hx))
        (by rw [hs4.2]; exact hlist)
        (Or.inr (by rw [hs1]; exact hs3))
      obtain ⟨hi1, hi2, hi3, hi4⟩ := ihres
      refine ⟨by rw [hi1, hs1], by rw [hi2, hs2], ?_, ?_⟩
      · rw [hs1, hLL] at hi3
        exact hi3
      · rw [hs1, hLL] at hi4
        by_cases houter : (∀ i, i < m.releases.length →
            tagOf (m.releases.getD i ⟨none, 0⟩)
              ∈ processed ++ (a :: rest).map AnalysisResult.releaseTag)
            ∧ (a :: rest) ≠ []
        · rw [if_pos houter]
          have hrestne : rest ≠ [] := by
            intro hr0
            subst hr0
            exact hcov1 (by simpa using houter.1)
          rw [if_pos ⟨houter.1, hrestne⟩] at hi4
          exact ⟨by rw [hi4.1, hs4.1], hi4.2⟩
        · rw [if_neg houter]
          have hcovfail : ¬ (∀ i, i < m.releases.length →
              tagOf (m.releases.getD i ⟨none, 0⟩)
                ∈ processed ++ (a :: rest).map AnalysisResult.releaseTag) := by
            intro hc
            exact houter ⟨hc, by simp⟩
          rw [if_neg (fun hx => hcovfail hx.1)] at hi4
          exact ⟨by rw [hi4.1, hs4.1], hi4.2⟩

/-- The non-empty `gitReleasesDownloadSuccessMsg` case in closed form. -/
theorem update_releasesFetched_fields (cfg : Config) (m : Model)
    (rels : List Releaseable) (hne : rels ≠ []) :
    (modelUpdate cfg m (.releasesFetched rels)).1
      = { m with releases := rels, state := m.state + 1 } := by
  simp [modelUpdate, hne]


/-- After the fetch completion and the full batch of download events,
the controller sits in `StateAnalyzing` with untouched slots and no
error. -/
theorem analyzing_setup (cfg : Config) (rels : List Releaseable)
    (ds : List Msg)
    (hne : rels ≠ [])
    (hds : ∀ x ∈ ds, isDownloadedMsg x = true)
    (hdlen : ds.length = rels.length) :
    (runModel cfg (modelUpdate cfg fetchingModel (.releasesFetched rels)).1
        ds).releases = rels
    ∧ (runModel cfg (modelUpdate cfg fetchingModel (.releasesFetched rels)).1
        ds).analysis = []
    ∧ (runModel cfg (modelUpdate cfg fetchingModel (.releasesFetched rels)).1
        ds).err = none
    ∧ (runModel cfg (modelUpdate cfg fetchingModel (.releasesFetched rels)).1
        ds).listCreated = false
    ∧ (runModel cfg (modelUpdate cfg fetchingModel (.releasesFetched rels)).1
        ds).state = StateAnalyzing := by
  have hm0 := update_releasesFetched_fields cfg fetchingModel rels hne
  set m0 := (modelUpdate cfg fetchingModel (.releasesFetched rels)).1
    with hm0def
  have hm0rel : m0.releases = rels := by rw [hm0]
  have hm0state : m0.state = StateFetching + 1 := by rw [hm0]; rfl
  have hm0dp : m0.downloadProgress = 0 := by rw [hm0]; rfl
  have hm0ana : m0.analysis = [] := by rw [hm0]; rfl
  have hm0err : m0.err = none := by rw [hm0]; rfl
  have hm0list : m0.listCreated = false := by rw [hm0]; rfl
  have hNpos : 0 < rels.length := List.length_pos.mpr hne
  obtain ⟨hr1, hr2, hr3, hr4, _, hst⟩ := run_downloads cfg ds m0 hds
    (by rw [hm0dp, hm0rel]; omega)
  refine ⟨by rw [hr1, hm0rel], by rw [hr2, hm0ana], by rw [hr3, hm0err],
    by rw [hr4, hm0list], ?_⟩
  rw [hst, hm0dp, hm0rel,
    if_pos ⟨by intro h0; rw [h0] at hdlen; simp at hdlen; omega, by omega⟩,
    hm0state]
  rfl

/-- C2: starting from the fetch completion with N releases (distinct,
non-empty tags), for any batch of N download-completion events in any
order and any permutation of the N analysis results: the controller is
still in `StateDownloadExtract` after every proper prefix of the
download events, reaches `StateAnalyzing` exactly on the last one, is
still in `StateAnalyzing` after every proper prefix of the analysis
events, and reaches `StateSummary` exactly on the last one, at which
point the report has one slot per release and slot `i` carries the tag
of release `i` — each slot filled by the unique result for its tag. -/
theorem c2_controller_stage_invariants (cfg : Config)
    (rels : List Releaseable) (ds : List Msg) (ars : List AnalysisResult)
    (hrf : cfg.removeFails = false)
    (hne : rels ≠ [])
    (hsome : ∀ r ∈ rels, ∃ t, r.tagName = some t ∧ t ≠ "")
    (hnodup : (rels.map tagOf).Nodup)
    (hds : ∀ x ∈ ds, isDownloadedMsg x = true)
    (hdlen : ds.length = rels.length)
    (hperm : (ars.map AnalysisResult.releaseTag).Perm (rels.map tagOf)) :
    (∀ k, k < rels.length →
      (runModel cfg
        (modelUpdate cfg fetchingModel (.releasesFetched rels)).1
        (ds.take k)).state = StateDownloadExtract)
    ∧ (runModel cfg (modelUpdate cfg fetchingModel (.releasesFetched rels)).1
        ds).state = StateAnalyzing
    ∧ (∀ k, k < rels.length →
        (runModel cfg
          (runModel cfg
            (modelUpdate cfg fetchingModel (.releasesFetched rels)).1 ds)
          ((ars.take k).map Msg.analysisDone)).state = StateAnalyzing)
    ∧ (runModel cfg
        (runModel cfg
          (modelUpdate cfg fetchingModel (.releasesFetched rels)).1 ds)
        (ars.map Msg.analysisDone)).state = StateSummary
    ∧ (runModel cfg
        (runModel cfg
          (modelUpdate cfg fetchingModel (.releasesFetched rels)).1 ds)
        (ars.map Msg.analysisDone)).analysis.length = rels.length
    ∧ (∀ i, i < rels.length →
        ((runModel cfg
            (runModel cfg
              (modelUpdate cfg fetchingModel (.releasesFetched rels)).1 ds)
            (ars.map Msg.analysisDone)).analysis.getD i {}).releaseTag
          = tagOf (rels.getD i ⟨none, 0⟩)) := by
  have hm0 := update_releasesFetched_fields cfg fetchingModel rels hne
  set m0 := (modelUpdate cfg fetchingModel (.releasesFetched rels)).1
    with hm0def
  have hm0rel : m0.releases = rels := by rw [hm0]
  have hm0state : m0.state = StateFetching + 1 := by rw [hm0]; rfl
  have hm0dp : m0.downloadProgress = 0 := by rw [hm0]; rfl
  have hNpos : 0 < rels.length := List.length_pos.mpr hne
  have harslen : ars.length = rels.length := by
    have := hperm.length_eq
    simpa using this
  obtain ⟨hm1rel, hm1ana, hm1err, hm1list, hm1state⟩ :=
    analyzing_setup cfg rels ds hne hds hdlen
  set m1 := runModel cfg m0 ds with hm1def
  have harsnodup : (ars.map AnalysisResult.releaseTag).Nodup :=
    (hperm.nodup_iff).mpr hnodup
  have harsmem : ∀ a ∈ ars, a.releaseTag ∈ rels.map tagOf :=
    fun a ha => hperm.mem_iff.mp (List.mem_map_of_mem _ ha)
  refine ⟨?_, hm1state, ?_, ?_, ?_, ?_⟩
  · -- (a) proper prefixes of the download phase
    intro k hk
    have htk : ∀ x ∈ ds.take k, isDownloadedMsg x = true :=
      fun x hx => hds x (List.take_subset k ds hx)
    have htklen : (ds.take k).length = k := by
      rw [List.length_take]
      omega
    obtain ⟨_, _, _, _, _, hst⟩ := run_downloads cfg (ds.take k) m0 htk
      (by rw [htklen, hm0dp, hm0rel]; omega)
    rw [hst, hm0dp, htklen, hm0rel,
      if_neg (by intro ⟨_, hx⟩; omega), hm0state]
    rfl
  · -- (c) proper prefixes of the analysis phase
    intro k hk
    have htknd : ([] ++ (ars.take k).map AnalysisResult.releaseTag).Nodup := by
      simp only [List.nil_append]
      rw [List.map_take]
      exact harsnodup.sublist
        (List.take_sublist k (ars.map AnalysisResult.releaseTag))
    obtain ⟨_, _, _, hif⟩ := run_analyses cfg hrf (ars.take k) m1 []
      (by rw [hm1rel]; exact hsome) (by rw [hm1rel]; exact hnodup)
      htknd
      (by intro a ha; rw [hm1rel]; exact harsmem a (List.take_subset k ars ha))
      hm1list (Or.inl ⟨rfl, hm1ana⟩)
    have hcovfail : ¬ ((∀ i, i < m1.releases.length →
        tagOf (m1.releases.getD i ⟨none, 0⟩)
          ∈ [] ++ (ars.take k).map AnalysisResult.releaseTag)
        ∧ ars.take k ≠ []) := by
      intro ⟨hcov, _⟩
      have hsub : rels.map tagOf
          ⊆ (ars.take k).map AnalysisResult.releaseTag := by
        intro t ht
        obtain ⟨i, hilen, hit⟩ := List.mem_iff_getElem.mp ht
        have hi : i < rels.length := by simpa using hilen
        have hcv := hcov i (by rw [hm1rel]; exact hi)
        rw [hm1rel] at hcv
        simp only [List.nil_append] at hcv
        rw [List.getElem_map] at hit
        rw [← List.getD_eq_getElem rels ⟨none, 0⟩ hi] at hit
        rw [hit] at hcv
        exact hcv
      have hle := (hnodup.subperm hsub).length_le
      have htklen : (ars.take k).length = k := by
        rw [List.length_take]
        omega
      rw [List.length_map, List.length_map, htklen] at hle
      omega
    rw [if_neg hcovfail] at hif
    rw [hif.1, hm1state]
  all_goals {
    have hcov : ∀ i, i < m1.releases.length →
        tagOf (m1.releases.getD i ⟨none, 0⟩)
          ∈ [] ++ ars.map AnalysisResult.releaseTag := by
      intro i hi
      rw [hm1rel] at hi ⊢
      simp only [List.nil_append]
      apply hperm.mem_iff.mpr
      have hi2 : i < (rels.map tagOf).length := by simpa using hi
      rw [List.getD_eq_getElem rels ⟨none, 0⟩ hi]
      rw [show tagOf rels[i] = (rels.map tagOf)[i] by
        rw [List.getElem_map]]
      exact List.getElem_mem _
    have harsne : ars ≠ [] := by
      intro h0
      rw [h0] at harslen
      simp at harslen
      omega
    obtain ⟨ha1, ha2, ha3, hif⟩ := run_analyses cfg hrf ars m1 []
      (by rw [hm1rel]; exact hsome) (by rw [hm1rel]; exact hnodup)
      (by simpa using harsnodup)
      (by intro a ha; rw [hm1rel]; exact harsmem a ha)
      hm1list (Or.inl ⟨rfl, hm1ana⟩)
    rw [if_pos ⟨hcov, harsne⟩] at hif
    have hsm : slotsMatch rels
        (runModel cfg m1 (ars.map Msg.analysisDone)).analysis
        ([] ++ ars.map AnalysisResult.releaseTag) := by
      rcases ha3 with ⟨hp0, _⟩ | hsm2
      · exfalso
        have hmap0 : ars.map AnalysisResult.releaseTag = [] := by
          simpa using hp0
        exact harsne (List.map_eq_nil.mp hmap0)
      · rw [hm1rel] at hsm2
        exact hsm2
    first
    | (rw [hif.1, hm1state]; rfl)
    | (exact hsm.1)
    | (intro i hi
       have hslot := hsm.2 i hi
       rw [hslot, if_pos (by
         have := hcov i (by rw [hm1rel]; exact hi)
         rw [hm1rel] at this
         exact this)]) }

/-- C2 witness: two releases, downloads completing newest-first, and
analysis results arriving in the opposite order of the releases. -/
theorem c2_controller_stage_invariants_witness :
    (∀ k, k < ([(⟨some "b", 2⟩ : Releaseable), ⟨some "a", 1⟩]).length →
      (runModel {}
        (modelUpdate {} fetchingModel
          (.releasesFetched [⟨some "b", 2⟩, ⟨some "a", 1⟩])).1
        (([Msg.downloaded "b" "d" 5 false,
           Msg.downloaded "a" "d" 0 true]).take k)).state
        = StateDownloadExtract)
    ∧ (runModel {}
        (modelUpdate {} fetchingModel
          (.releasesFetched [⟨some "b", 2⟩, ⟨some "a", 1⟩])).1
        [Msg.downloaded "b" "d" 5 false, Msg.downloaded "a" "d" 0 true]).state
        = StateAnalyzing
    ∧ (∀ k, k < ([(⟨some "b", 2⟩ : Releaseable), ⟨some "a", 1⟩]).length →
        (runModel {}
          (runModel {}
            (modelUpdate {} fetchingModel
              (.releasesFetched [⟨some "b", 2⟩, ⟨some "a", 1⟩])).1
            [Msg.downloaded "b" "d" 5 false, Msg.downloaded "a" "d" 0 true])
          ((([({ releaseTag := "a" } : AnalysisResult),
              { releaseTag := "b" }]).take k).map Msg.analysisDone)).state
          = StateAnalyzing)
    ∧ (runModel {}
        (runModel {}
          (modelUpdate {} fetchingModel
            (.releasesFetched [⟨some "b", 2⟩, ⟨some "a", 1⟩])).1
          [Msg.downloaded "b" "d" 5 false, Msg.downloaded "a" "d" 0 true])
        (([({ releaseTag := "a" } : AnalysisResult),
           { releaseTag := "b" }]).map Msg.analysisDone)).state
        = StateSummary
    ∧ (runModel {}
        (runModel {}
          (modelUpdate {} fetchingModel
            (.releasesFetched [⟨some "b", 2⟩, ⟨some "a", 1⟩])).1
          [Msg.downloaded "b" "d" 5 false, Msg.downloaded "a" "d" 0 true])
        (([({ releaseTag := "a" } : AnalysisResult),
           { releaseTag := "b" }]).map Msg.analysisDone)).analysis.length
        = ([(⟨some "b", 2⟩ : Releaseable), ⟨some "a", 1⟩]).length
    ∧ (∀ i, i < ([(⟨some "b", 2⟩ : Releaseable), ⟨some "a", 1⟩]).length →
        ((runModel {}
            (runModel {}
              (modelUpdate {} fetchingModel
                (.releasesFetched [⟨some "b", 2⟩, ⟨some "a", 1⟩])).1
              [Msg.downloaded "b" "d" 5 false, Msg.downloaded "a" "d" 0 true])
            (([({ releaseTag := "a" } : AnalysisResult),
               { releaseTag := "b" }]).map Msg.analysisDone)).analysis.getD
              i {}).releaseTag
          = tagOf (([(⟨some "b", 2⟩ : Releaseable), ⟨some "a", 1⟩]).getD i
              ⟨none, 0⟩)) := by
  exact c2_controller_stage_invariants {} [⟨some "b", 2⟩, ⟨some "a", 1⟩]
    [Msg.downloaded "b" "d" 5 false, Msg.downloaded "a" "d" 0 true]
    [{ releaseTag := "a" }, { releaseTag := "b" }]
    rfl (by decide)
    (by
      intro r hr
      rcases List.mem_cons.mp hr with h1 | hr2
      · exact ⟨"b", by rw [h1], by decide⟩
      rcases List.mem_cons.mp hr2 with h2 | hr3
      · exact ⟨"a", by rw [h2], by decide⟩
      · exact absurd hr3 (List.not_mem_nil r))
    (by decide) (by decide) rfl (by decide)
